import Mathlib

/-! fizzbuzzvm: two bytecode interpreters running FizzBuzz.

A shallow embedding of `fizzbuzzreg.c` (register machine) and `fizzbuzzvm.c`
(stack machine).

Conventions of the embedding:

* an instruction word (`unsigned short`) is a `Nat`; the encoder macros truncate
  to 16 bits with `% 65536` where the C code casts to `unsigned short` or stores
  into an `unsigned short` array;
* a C `int` is an `Int`; results of `+` are wrapped into 32 bits (`wrapInt`); `%` is
  `Int.tmod`, with a fault where C leaves it undefined and the processor traps (a zero
  divisor, `INT_MIN % -1`);
* the loop counter `i` (`size_t`) is a `Nat`; `i += arg` is computed modulo `2^64`
  (`sizeAdd`);
* arrays (`reg[8]`, `stack[16]`, `instr`, `strings`) are lists, every array access
  of the C code is a checked access, and an access outside the list is the fault
  `outOfBounds`;
* `assert` failures, `abort()` and a remainder by zero are faults; a run is given
  fuel, one unit per test of the loop condition.
-/

namespace FizzBuzz

/-- The ways in which a run can end abnormally. -/
inductive Fault
  /-- An `assert(...)` did not hold. -/
  | assertion
  /-- The `default:` branch of the `switch`: `abort()`. -/
  | unknownOpcode
  /-- The right operand of `%` was zero. -/
  | divByZero
  /-- The quotient of `%` is not an `int`: `INT_MIN % -1`. -/
  | remOverflow
  /-- An array was indexed outside its bounds. -/
  | outOfBounds
  deriving DecidableEq, Repr

/-- The result of executing one instruction: continue with the loop in a new
state, leave the loop (`goto end`), or abort. -/
inductive Step (σ : Type)
  | next (s : σ)
  | stop (s : σ)
  | fault (f : Fault)
  deriving DecidableEq, Repr

/-- The result of a run: the value returned by `runvm` together with everything
written to `stdout`, an abort, or fuel exhausted before the loop was left. -/
inductive Outcome
  | returned (ret : Int) (out : List Char)
  | aborted (f : Fault)
  | outOfFuel
  deriving DecidableEq, Repr

/-- Conversion of a non-negative value to `unsigned short` (16 bits). -/
def trunc16 (n : Nat) : Nat := n % 65536

/-- Conversion of an `int` to `unsigned short` (16 bits). -/
def toUShort (x : Int) : Nat := (x % 65536).toNat

/-- The value of `x & (m - 1)` for a C `int` `x` and a power of two `m`
(two's complement): the residue of `x` modulo `m`. -/
def maskInt (x : Int) (m : Nat) : Nat := (x % (m : Int)).toNat

/-- A 32-bit `int` result: the value reduced into `[-2^31, 2^31)`. -/
def wrapInt (x : Int) : Int := (x + 2147483648) % 4294967296 - 2147483648

/-- The least `int`, `INT_MIN`. -/
def INT_MIN : Int := -2147483648

/-- The 32-bit two's complement pattern of an `int`. -/
def toU32 (x : Int) : Nat := (x % 4294967296).toNat

/-- The C expression `a | b` on `int`: the bitwise or of the two's complement patterns
of `a` and `b`, read back as an `int`. -/
def intOr (a b : Int) : Int := wrapInt ((toU32 a ||| toU32 b : Nat) : Int)

/-- The statement `i += arg` for `size_t i` and `int arg`: addition modulo `2^64`. -/
def sizeAdd (i : Nat) (arg : Int) : Nat := (((i : Int) + arg) % 18446744073709551616).toNat

/-- The byte written by `putchar(c)`: `c` converted to `unsigned char`. -/
def putchar (c : Int) : Char := Char.ofNat (c % 256).toNat

/-- The text written by `printf("%d", x)`. -/
def printNum (x : Int) : List Char := (toString x).toList

end FizzBuzz

namespace FizzBuzzReg

open FizzBuzz

/-! ## fizzbuzzreg.c: opcodes and encoder macros -/

def OP_NOP : Nat := 0
def OP_LOAD : Nat := 1
def OP_MOVE : Nat := 2
def OP_ADD : Nat := 3
def OP_MOD : Nat := 4
def OP_CJMP : Nat := 5
def OP_PRINTCHAR : Nat := 6
def OP_PRINTNUM : Nat := 7

/-- Macro `#define REG(rn) ((unsigned short)((rn-1) & 7))` -/
def REG (rn : Int) : Nat := trunc16 (maskInt (rn - 1) 8)

/-- Macro `#define OP(arg) ((unsigned short)(arg & 7))` -/
def OP (arg : Int) : Nat := trunc16 (maskInt arg 8)

/-- Macro `#define IMM(arg) ((unsigned short)(arg & 0x1fff))` -/
def IMM (arg : Int) : Nat := trunc16 (maskInt arg 8192)

/-- Macro `#define OP1(op,arg) ((unsigned short)(OP(op) | (IMM(arg) << 3)))` -/
def OP1 (op : Int) (arg : Int) : Nat := trunc16 (OP op ||| (IMM arg <<< 3))

/-- Macro `#define OP2(op,ra,arg) ((unsigned short)(OP(op) | (REG(ra) << 3) | (IMM(arg) << 6)))` -/
def OP2 (op : Int) (ra : Int) (arg : Int) : Nat :=
  trunc16 (OP op ||| (REG ra <<< 3) ||| (IMM arg <<< 6))

/-- Macro `#define OP3(op,ra,rb,arg) (... OP(op) | (REG(ra) << 3) | (REG(rb) << 6) | (IMM(arg) << 9))` -/
def OP3 (op : Int) (ra : Int) (rb : Int) (arg : Int) : Nat :=
  trunc16 (OP op ||| (REG ra <<< 3) ||| (REG rb <<< 6) ||| (IMM arg <<< 9))

/-- Macro `#define LOAD(rdest, val) OP2(OP_LOAD, rdest, (val + 512))` -/
def LOAD (rdest : Int) (val : Int) : Nat := OP2 OP_LOAD rdest (val + 512)

/-- Macro `#define MOVE(rdest, rsrc) OP2(OP_MOVE, rdest, REG(rsrc))` -/
def MOVE (rdest : Int) (rsrc : Int) : Nat := OP2 OP_MOVE rdest (REG rsrc)

/-- Macro `#define ADD(rdest, rsrc) OP2(OP_ADD, rdest, REG(rsrc))` -/
def ADD (rdest : Int) (rsrc : Int) : Nat := OP2 OP_ADD rdest (REG rsrc)

/-- Macro `#define MOD(rdest, rsrc) OP2(OP_MOD, rdest, REG(rsrc))` -/
def MOD (rdest : Int) (rsrc : Int) : Nat := OP2 OP_MOD rdest (REG rsrc)

/-- Macro `#define CJMP(rz,rel) OP2(OP_CJMP, rz, (rel+512))` -/
def CJMP (rz : Int) (rel : Int) : Nat := OP2 OP_CJMP rz (rel + 512)

/-- Macro `#define PRINTSTR(s) OP1(OP_PRINTCHAR, (s+8))` -/
def PRINTSTR (s : Int) : Nat := OP1 OP_PRINTCHAR (s + 8)

/-- Macro `#define PRINTCHAR(reg) OP1(OP_PRINTCHAR, REG(reg))` -/
def PRINTCHAR (reg : Int) : Nat := OP1 OP_PRINTCHAR (REG reg)

/-- Macro `#define PRINTNUM(reg) OP1(OP_PRINTNUM, REG(reg))` -/
def PRINTNUM (reg : Int) : Nat := OP1 OP_PRINTNUM (REG reg)

/-- The program `static unsigned short fizzbuzz[]` of `fizzbuzzreg.c`. -/
def fizzbuzz : List Nat :=
  [ LOAD 2 1, LOAD 3 3, LOAD 4 5, LOAD 5 15, LOAD 7 0,
    LOAD 1 0,
    ADD 1 2,
    MOVE 6 1, MOD 6 5, CJMP 6 9,
    MOVE 6 1, MOD 6 3, CJMP 6 8,
    MOVE 6 1, MOD 6 4, CJMP 6 7,
    PRINTNUM 1, CJMP 7 6,
    PRINTSTR 0, CJMP 7 4,
    PRINTSTR 1, CJMP 7 2,
    PRINTSTR 2,
    LOAD 6 10, PRINTCHAR 6,
    LOAD 6 (-100), ADD 6 1, CJMP 6 3,
    LOAD 6 0, CJMP 6 (-23),
    LOAD 1 0 ]

/-- The table `const char *strings[]` of `fizzbuzzreg.c`. -/
def strings : List String := ["FizzBuzz", "Fizz", "Buzz"]

/-! ## fizzbuzzreg.c: the interpreter -/

/-- The variables of `runvm` that live across loop iterations, and `stdout`. -/
structure State where
  /-- The loop counter `i`. -/
  pc : Nat
  /-- The array `int reg[8]`. -/
  reg : List Int
  /-- The characters written so far. -/
  out : List Char
  deriving DecidableEq, Repr

/-- The value of register `r` (`reg[r]`), for `r` inside the array. -/
def State.R (s : State) (r : Nat) : Int := s.reg.getD r 0

/-- The decoded opcode: `op = ci & 0x7`. -/
def dec_op (ci : Nat) : Nat := ci &&& 0x7

/-- The first register field: `r1 = (ci >> 3) & 0x7` (for `PRINTNUM`, `arg`). -/
def dec_r1 (ci : Nat) : Nat := (ci >>> 3) &&& 0x7

/-- The second register field: `r2 = (ci >> 6) & 0x7`. -/
def dec_r2 (ci : Nat) : Nat := (ci >>> 6) &&& 0x7

/-- The immediate of `LOAD` and `CJMP`: `arg = (ci >> 6) - 512`. -/
def dec_imm (ci : Nat) : Int := ((ci >>> 6 : Nat) : Int) - 512

/-- The operand of `PRINTCHAR`: `arg = ci >> 3`. -/
def dec_arg (ci : Nat) : Nat := ci >>> 3

/-- The assignment `reg[r] = v`, followed by the `break` and the `i++` of the loop. -/
def setReg (s : State) (r : Nat) (v : Int) : Step State :=
  if r < s.reg.length then .next { s with reg := s.reg.set r v, pc := s.pc + 1 }
  else .fault .outOfBounds

/-- The body of the `for` loop of `runvm` for the fetched word `ci = instr[i]`,
including the `i++` after a `break` and the `goto restart` of a taken jump. -/
def exec (strings : List String) (ci : Nat) (s : State) : Step State :=
  match dec_op ci with
  | 0 => .next { s with pc := s.pc + 1 }
  | 1 => setReg s (dec_r1 ci) (dec_imm ci)
  | 2 =>
    match s.reg[dec_r2 ci]? with
    | some v => setReg s (dec_r1 ci) v
    | none => .fault .outOfBounds
  | 3 =>
    match s.reg[dec_r1 ci]?, s.reg[dec_r2 ci]? with
    | some a, some b => setReg s (dec_r1 ci) (wrapInt (a + b))
    | _, _ => .fault .outOfBounds
  | 4 =>
    match s.reg[dec_r1 ci]?, s.reg[dec_r2 ci]? with
    | some a, some b =>
      if b = 0 then .fault .divByZero
      else if a = INT_MIN ∧ b = -1 then .fault .remOverflow
      else setReg s (dec_r1 ci) (Int.tmod a b)
    | _, _ => .fault .outOfBounds
  | 5 =>
    match s.reg[dec_r1 ci]? with
    | some v =>
      if v = 0 then .next { s with pc := sizeAdd s.pc (dec_imm ci) }
      else .next { s with pc := s.pc + 1 }
    | none => .fault .outOfBounds
  | 6 =>
    if dec_arg ci < 8 then
      match s.reg[dec_arg ci]? with
      | some v => .next { s with out := s.out ++ [putchar v], pc := s.pc + 1 }
      | none => .fault .outOfBounds
    else
      match strings[dec_arg ci - 8]? with
      | some str => .next { s with out := s.out ++ str.toList, pc := s.pc + 1 }
      | none => .fault .assertion
  | 7 =>
    match s.reg[dec_r1 ci]? with
    | some v => .next { s with out := s.out ++ printNum v, pc := s.pc + 1 }
    | none => .fault .outOfBounds
  | _ => .fault .unknownOpcode

/-- One trip through `restart: for(; i < num_instr; i++) { ... }`: `none` when the
loop condition fails, otherwise the result of executing `instr[i]`. -/
def step (instr : List Nat) (strings : List String) (s : State) : Option (Step State) :=
  match instr[s.pc]? with
  | none => none
  | some ci => some (exec strings ci s)

/-- The loop of `runvm` from state `s` and the final `return reg[0]`, with one unit
of fuel per loop test. This machine has no `STOP`: `exec` never gives `Step.stop`. -/
def run (instr : List Nat) (strings : List String) : Nat → State → Outcome
  | 0, _ => .outOfFuel
  | fuel + 1, s =>
    match step instr strings s with
    | none =>
      match s.reg[0]? with
      | some v => .returned v s.out
      | none => .aborted .outOfBounds
    | some (.next s') => run instr strings fuel s'
    | some (.stop s') =>
      match s'.reg[0]? with
      | some v => .returned v s'.out
      | none => .aborted .outOfBounds
    | some (.fault f) => .aborted f

/-- The state at entry of the loop: `i = 0`, `int reg[8] = { 0 }`, nothing written. -/
def initState : State := { pc := 0, reg := List.replicate 8 0, out := [] }

/-- Function `int runvm(instr, num_instr, strings, num_strings)` of `fizzbuzzreg.c`, the two
arrays given as lists with their lengths. -/
def runvm (fuel : Nat) (instr : List Nat) (strings : List String) : Outcome :=
  run instr strings fuel initState

/-- The effect of a data instruction on a state: register `rD` holds `v`, every other
register is unchanged, nothing is written and `pc` is advanced by one. -/
def Writes (s s' : State) (rD : Nat) (v : Int) : Prop :=
  s'.R rD = v ∧ (∀ r, r ≠ rD → s'.R r = s.R r) ∧ s'.reg.length = s.reg.length ∧
  s'.out = s.out ∧ s'.pc = s.pc + 1

end FizzBuzzReg

namespace FizzBuzzVM

open FizzBuzz

/-! ## fizzbuzzvm.c: opcodes and encoder macros -/

def OP_PUSH : Nat := 0
def OP_DUP : Nat := 1
def OP_ADD : Nat := 2
def OP_REMAINDER : Nat := 3
def OP_CJMP : Nat := 4
def OP_PRINTCHAR : Nat := 5
def OP_PRINTNUM : Nat := 6
def OP_STOP : Nat := 7

/-- Macro `#define OPARG(op,arg) (((unsigned short)(2048 + arg) << 4) | op)`: an `int`
expression, `op` an `int` that is or-ed in as it is, not yet truncated to 16 bits. -/
def OPARG (op : Int) (arg : Int) : Int :=
  intOr ((toUShort (2048 + arg) <<< 4 : Nat) : Int) op

/-- Macro `#define PUSHIMM(imm) OPARG(OP_PUSH, imm)` -/
def PUSHIMM (imm : Int) : Int := OPARG OP_PUSH imm

/-- Macro `#define CJMP(rel) OPARG(OP_CJMP, rel)` -/
def CJMP (rel : Int) : Int := OPARG OP_CJMP rel

/-- Macro `#define ADD(imm) OPARG(OP_ADD, imm)` -/
def ADD (imm : Int) : Int := OPARG OP_ADD imm

/-- Macro `#define PRINTCHAR(imm) OPARG(OP_PRINTCHAR, imm)` -/
def PRINTCHAR (imm : Int) : Int := OPARG OP_PRINTCHAR imm

/-- The word stored in an `unsigned short` array element initialised with the
`int` expression `e`. -/
def word (e : Int) : Nat := toUShort e

/-- The program `static unsigned short fizzbuzz[]` of `fizzbuzzvm.c`. -/
def fizzbuzz : List Nat :=
  [ word (PUSHIMM 0),
    word (ADD 1),
    word OP_DUP, word (PUSHIMM 15), word OP_REMAINDER, word (CJMP 13),
    word OP_DUP, word (PUSHIMM 3), word OP_REMAINDER, word (CJMP 12),
    word OP_DUP, word (PUSHIMM 5), word OP_REMAINDER, word (CJMP 11),
    word OP_DUP, word OP_PRINTNUM, word (PUSHIMM 0), word (CJMP 8),
    word (PRINTCHAR 3), word (PUSHIMM 0), word (CJMP 5),
    word (PRINTCHAR 1), word (PUSHIMM 0), word (CJMP 2),
    word (PRINTCHAR 2),
    word (PUSHIMM 10), word (PRINTCHAR 0), word OP_DUP, word (ADD (-100)), word (CJMP 3),
    word (PUSHIMM 0), word (CJMP (-30)),
    word (PUSHIMM 0) ]

/-- The table `const char *strings[]` of `fizzbuzzvm.c`. -/
def strings : List String := ["Fizz", "Buzz", "FizzBuzz"]

/-! ## fizzbuzzvm.c: the interpreter -/

/-- The variables of `runvm` that live across loop iterations, and `stdout`. -/
structure State where
  /-- The loop counter `i`. -/
  pc : Nat
  /-- The array `int stack[16]`. -/
  stack : List Int
  /-- The variable `int top`. -/
  top : Int
  /-- The characters written so far. -/
  out : List Char
  deriving DecidableEq, Repr

/-- The constant `max_stack = sizeof stack / sizeof stack[0]`. -/
def max_stack (s : State) : Int := (s.stack.length : Int)

/-- The value of `a[i]`, when `i` is inside the array. -/
def rd (a : List Int) (i : Int) : Option Int :=
  if 0 ≤ i then a[i.toNat]? else none

/-- The array after `a[i] = v`, when `i` is inside the array. -/
def wr (a : List Int) (i : Int) (v : Int) : Option (List Int) :=
  if 0 ≤ i ∧ i.toNat < a.length then some (a.set i.toNat v) else none

/-- The decoded opcode: `op = instr[i] & 0xf`. -/
def dec_op (w : Nat) : Nat := w &&& 0xf

/-- The decoded argument: `arg = (instr[i] >> 4) - 2048`. -/
def dec_arg (w : Nat) : Int := ((w >>> 4 : Nat) : Int) - 2048

/-- The body of the `for` loop of `runvm` for the fetched word `w = instr[i]`,
including the `i++` after a `break` and the `goto restart` of a taken jump. -/
def exec (strings : List String) (w : Nat) (s : State) : Step State :=
  let arg : Int := dec_arg w
  match dec_op w with
  | 0 =>
    if s.top < max_stack s then
      match wr s.stack s.top arg with
      | some st => .next { s with stack := st, top := s.top + 1, pc := s.pc + 1 }
      | none => .fault .outOfBounds
    else .fault .assertion
  | 1 =>
    if 0 < s.top ∧ s.top < max_stack s then
      match rd s.stack (s.top - 1) with
      | some v =>
        match wr s.stack s.top v with
        | some st => .next { s with stack := st, top := s.top + 1, pc := s.pc + 1 }
        | none => .fault .outOfBounds
      | none => .fault .outOfBounds
    else .fault .assertion
  | 2 =>
    if arg = 0 then
      if 1 < s.top then
        match rd s.stack (s.top - 2), rd s.stack (s.top - 1) with
        | some a, some b =>
          match wr s.stack (s.top - 2) (wrapInt (a + b)) with
          | some st => .next { s with stack := st, top := s.top - 1, pc := s.pc + 1 }
          | none => .fault .outOfBounds
        | _, _ => .fault .outOfBounds
      else .fault .assertion
    else
      if 0 < s.top then
        match rd s.stack (s.top - 1) with
        | some a =>
          match wr s.stack (s.top - 1) (wrapInt (a + arg)) with
          | some st => .next { s with stack := st, pc := s.pc + 1 }
          | none => .fault .outOfBounds
        | none => .fault .outOfBounds
      else .fault .assertion
  | 3 =>
    if 1 < s.top then
      match rd s.stack (s.top - 2), rd s.stack (s.top - 1) with
      | some a, some b =>
        if b = 0 then .fault .divByZero
        else if a = INT_MIN ∧ b = -1 then .fault .remOverflow
        else
          match wr s.stack (s.top - 2) (Int.tmod a b) with
          | some st => .next { s with stack := st, top := s.top - 1, pc := s.pc + 1 }
          | none => .fault .outOfBounds
      | _, _ => .fault .outOfBounds
    else .fault .assertion
  | 4 =>
    if arg ≠ 0 then
      if 0 < s.top then
        match rd s.stack (s.top - 1) with
        | some v =>
          if v = 0 then .next { s with top := s.top - 1, pc := sizeAdd s.pc arg }
          else .next { s with top := s.top - 1, pc := s.pc + 1 }
        | none => .fault .outOfBounds
      else .fault .assertion
    else .next { s with pc := s.pc + 1 }
  | 5 =>
    if arg = 0 then
      if 0 < s.top then
        match rd s.stack (s.top - 1) with
        | some v => .next { s with top := s.top - 1, out := s.out ++ [putchar v], pc := s.pc + 1 }
        | none => .fault .outOfBounds
      else .fault .assertion
    else
      if 0 < arg ∧ arg ≤ (strings.length : Int) then
        match strings[(arg - 1).toNat]? with
        | some str => .next { s with out := s.out ++ str.toList, pc := s.pc + 1 }
        | none => .fault .outOfBounds
      else .fault .assertion
  | 6 =>
    if 0 < s.top then
      match rd s.stack (s.top - 1) with
      | some v => .next { s with top := s.top - 1, out := s.out ++ printNum v, pc := s.pc + 1 }
      | none => .fault .outOfBounds
    else .fault .assertion
  | 7 => .stop s
  | _ => .fault .unknownOpcode

/-- One trip through `restart: for(; i < num_instr; i++) { ... }`: `none` when the
loop condition fails, otherwise the result of executing `instr[i]`. -/
def step (instr : List Nat) (strings : List String) (s : State) : Option (Step State) :=
  match instr[s.pc]? with
  | none => none
  | some w => some (exec strings w s)

/-- The statement `end: return (top > 0) ? stack[top-1] : 0;`. -/
def ret (s : State) : Outcome :=
  if 0 < s.top then
    match rd s.stack (s.top - 1) with
    | some v => .returned v s.out
    | none => .aborted .outOfBounds
  else .returned 0 s.out

/-- The loop of `runvm` from state `s` and the final `return`, with one unit of
fuel per loop test. -/
def run (instr : List Nat) (strings : List String) : Nat → State → Outcome
  | 0, _ => .outOfFuel
  | fuel + 1, s =>
    match step instr strings s with
    | none => ret s
    | some (.next s') => run instr strings fuel s'
    | some (.stop s') => ret s'
    | some (.fault f) => .aborted f

/-- The state at entry of the loop: `i = 0`, `top = 0`, nothing written; `cells` is
the content of the uninitialised array `int stack[16]`. -/
def initState (cells : List Int) : State := { pc := 0, stack := cells, top := 0, out := [] }

/-- Function `int runvm(instr, num_instr, strings, num_strings)` of `fizzbuzzvm.c`, the two
arrays given as lists with their lengths; `cells` is the content the uninitialised
array `stack` happens to have. -/
def runvm (fuel : Nat) (cells : List Int) (instr : List Nat) (strings : List String) : Outcome :=
  run instr strings fuel (initState cells)

/-- Two states that differ at most in array cells at or above `top`. -/
def Agree (s t : State) : Prop :=
  s.pc = t.pc ∧ s.top = t.top ∧ s.out = t.out ∧ s.stack.length = t.stack.length ∧
  ∀ i : Int, i < s.top → rd s.stack i = rd t.stack i

/-- Two step results of the same kind, on states that agree. -/
def StepAgree : Step State → Step State → Prop
  | .next s, .next t => Agree s t
  | .stop s, .stop t => Agree s t
  | .fault f, .fault g => f = g
  | _, _ => False

/-- The underflow and bad-operand conditions of a step: `ADD 0` or `REMAINDER` with
`top < 2`; `ADD imm` (`imm != 0`), `CJMP rel` (`rel != 0`), `PRINTCHAR 0` or `PRINTNUM`
with `top == 0`; an opcode in `8..15`; `PRINTCHAR imm` with `imm < 0` or
`imm > num_strings`. -/
def Underflow (strings : List String) (w : Nat) (s : State) : Prop :=
  ((dec_op w = OP_ADD ∧ dec_arg w = 0 ∨ dec_op w = OP_REMAINDER) ∧ s.top < 2) ∨
  ((dec_op w = OP_ADD ∧ dec_arg w ≠ 0 ∨ dec_op w = OP_CJMP ∧ dec_arg w ≠ 0
      ∨ dec_op w = OP_PRINTCHAR ∧ dec_arg w = 0 ∨ dec_op w = OP_PRINTNUM) ∧ s.top = 0) ∨
  (8 ≤ dec_op w ∧ dec_op w ≤ 15) ∨
  (dec_op w = OP_PRINTCHAR ∧ (dec_arg w < 0 ∨ (strings.length : Int) < dec_arg w))

/-- The overflow and empty-`DUP` conditions of a step: `PUSH` or `DUP` with `top` at
capacity, `DUP` with `top == 0`. -/
def Overflow (w : Nat) (s : State) : Prop :=
  ((dec_op w = OP_PUSH ∨ dec_op w = OP_DUP) ∧ s.top = max_stack s) ∨
  (dec_op w = OP_DUP ∧ s.top = 0)

/-- The condition remainder by zero: `REMAINDER` with a zero on top of the stack. -/
def RemByZero (w : Nat) (s : State) : Prop :=
  dec_op w = OP_REMAINDER ∧ rd s.stack (s.top - 1) = some 0

/-- The condition remainder overflow: `REMAINDER` of `INT_MIN` by `-1`, whose quotient
is not an `int`. -/
def RemOverflow (w : Nat) (s : State) : Prop :=
  dec_op w = OP_REMAINDER ∧ rd s.stack (s.top - 2) = some INT_MIN ∧
  rd s.stack (s.top - 1) = some (-1)

/-- The change of the stack depth listed for each instruction: `PUSH`, `DUP`: `+1`;
`ADD imm` (`imm != 0`), `CJMP 0`, `PRINTCHAR imm` (`imm != 0`), `STOP`: `0`; `ADD 0`,
`REMAINDER`, `CJMP rel` (`rel != 0`), `PRINTCHAR 0`, `PRINTNUM`: `-1`. -/
def depthDelta (w : Nat) : Int :=
  if dec_op w = OP_PUSH ∨ dec_op w = OP_DUP then 1
  else if dec_op w = OP_ADD ∧ dec_arg w ≠ 0 ∨ dec_op w = OP_CJMP ∧ dec_arg w = 0
      ∨ dec_op w = OP_PRINTCHAR ∧ dec_arg w ≠ 0 ∨ dec_op w = OP_STOP then 0
  else -1

/-- The state after `n` trips through the loop from `s`, none of which aborted or
left the loop. -/
def stepsN (instr : List Nat) (strings : List String) : Nat → State → Option State
  | 0, s => some s
  | n + 1, s =>
    match step instr strings s with
    | some (.next s') => stepsN instr strings n s'
    | _ => none

/-- A program in which every `CJMP` word has a decoded offset `rel >= 0`. -/
def ForwardOnly (instr : List Nat) : Prop :=
  ∀ w ∈ instr, dec_op w = OP_CJMP → 0 ≤ dec_arg w

end FizzBuzzVM

namespace FizzBuzz

/-- The line for the counter `n`. -/
def line (n : Nat) : String :=
  if n % 15 = 0 then "FizzBuzz"
  else if n % 3 = 0 then "Fizz"
  else if n % 5 = 0 then "Buzz"
  else toString n

/-- The lines for `n = lo+1, ..., lo+k`, each followed by one newline. -/
def linesFrom (lo : Nat) : Nat → List Char
  | 0 => []
  | k + 1 => (line (lo + 1)).toList ++ '\n' :: linesFrom (lo + 1) k

/-- The lines for `n = 1, ..., 100`, each followed by one newline. -/
def expectedOutput : List Char := linesFrom 0 100

end FizzBuzz


/-! ## Bit-field arithmetic -/

namespace FizzBuzz

theorem land7_eq (x : Nat) : x &&& 0x7 = x % 8 := Nat.and_pow_two_sub_one_eq_mod x 3

theorem land15_eq (x : Nat) : x &&& 0xf = x % 16 := Nat.and_pow_two_sub_one_eq_mod x 4

theorem shr3_eq (x : Nat) : x >>> 3 = x / 8 := Nat.shiftRight_eq_div_pow x 3

theorem shr4_eq (x : Nat) : x >>> 4 = x / 16 := Nat.shiftRight_eq_div_pow x 4

theorem shr6_eq (x : Nat) : x >>> 6 = x / 64 := Nat.shiftRight_eq_div_pow x 6

/-- A field placed above `k` low bits is added: `a | (b << k) = a + b * 2^k`. -/
theorem lor_shl_eq (k a b : Nat) (h : a < 2 ^ k) : a ||| (b <<< k) = a + 2 ^ k * b := by
  rw [Nat.shiftLeft_eq, Nat.or_comm, Nat.mul_comm, ← Nat.mul_add_lt_is_or h]
  omega

theorem maskInt_lt (x : Int) (m : Nat) (hm : 0 < m) : maskInt x m < m := by
  unfold maskInt
  have h1 : x % (m : Int) < m := Int.emod_lt_of_pos x (by omega)
  have h2 : 0 ≤ x % (m : Int) := Int.emod_nonneg x (by omega)
  omega

end FizzBuzz

namespace FizzBuzzReg

open FizzBuzz

/-- The word built by `OP1` as a sum of its fields. -/
theorem OP1_eq (op arg : Int) :
    OP1 op arg = ((op % 8).toNat + 8 * (arg % 8192).toNat) % 65536 := by
  have h1 : (op % 8).toNat < 2 ^ 3 := by omega
  simp only [OP1, OP, IMM, trunc16, maskInt, Nat.cast_ofNat]
  rw [Nat.mod_eq_of_lt (a := (op % 8).toNat) (by omega),
    Nat.mod_eq_of_lt (a := (arg % 8192).toNat) (by omega), lor_shl_eq 3 _ _ h1]
  norm_num

/-- The word built by `OP2` as a sum of its fields. -/
theorem OP2_eq (op ra arg : Int) :
    OP2 op ra arg
      = ((op % 8).toNat + 8 * ((ra - 1) % 8).toNat + 64 * (arg % 8192).toNat) % 65536 := by
  have h1 : (op % 8).toNat < 2 ^ 3 := by omega
  have h2 : (op % 8).toNat + 2 ^ 3 * ((ra - 1) % 8).toNat < 2 ^ 6 := by omega
  simp only [OP2, OP, REG, IMM, trunc16, maskInt, Nat.cast_ofNat]
  rw [Nat.mod_eq_of_lt (a := (op % 8).toNat) (by omega),
    Nat.mod_eq_of_lt (a := ((ra - 1) % 8).toNat) (by omega),
    Nat.mod_eq_of_lt (a := (arg % 8192).toNat) (by omega),
    lor_shl_eq 3 _ _ h1, lor_shl_eq 6 _ _ h2]
  norm_num

theorem REG_eq (rn : Int) : REG rn = ((rn - 1) % 8).toNat := by
  simp only [REG, trunc16, maskInt, Nat.cast_ofNat]
  omega

end FizzBuzzReg

/-! ## Encoder round trips -/

namespace FizzBuzzReg

open FizzBuzz

/-- C3: register machine, every word built by an encoder macro from operands in
range (register numbers `d`, `s` in `1..8`, immediate `v` in `[-512, 511]`, string id
`k` in `[0, 8183]`) is decoded by `runvm` to the opcode and the operands it was built
from: `LOAD`/`CJMP` give `r1 = d-1` and `arg = v`, `MOVE`/`ADD`/`MOD` give `r1 = d-1`
and `r2 = s-1`, `PRINTNUM` gives register `d-1`, `PRINTCHAR` gives `arg = d-1 < 8`
(register branch) and `PRINTSTR` gives `arg = k+8 ≥ 8` (string branch, string `k`). -/
theorem reg_encode_decode_roundtrip (d s v k : Int)
    (hd : 1 ≤ d ∧ d ≤ 8) (hs : 1 ≤ s ∧ s ≤ 8)
    (hv : -512 ≤ v ∧ v ≤ 511) (hk : 0 ≤ k ∧ k ≤ 8183) :
    (dec_op (LOAD d v) = OP_LOAD ∧ (dec_r1 (LOAD d v) : Int) = d - 1
        ∧ dec_imm (LOAD d v) = v) ∧
    (dec_op (CJMP d v) = OP_CJMP ∧ (dec_r1 (CJMP d v) : Int) = d - 1
        ∧ dec_imm (CJMP d v) = v) ∧
    (dec_op (MOVE d s) = OP_MOVE ∧ (dec_r1 (MOVE d s) : Int) = d - 1
        ∧ (dec_r2 (MOVE d s) : Int) = s - 1) ∧
    (dec_op (ADD d s) = OP_ADD ∧ (dec_r1 (ADD d s) : Int) = d - 1
        ∧ (dec_r2 (ADD d s) : Int) = s - 1) ∧
    (dec_op (MOD d s) = OP_MOD ∧ (dec_r1 (MOD d s) : Int) = d - 1
        ∧ (dec_r2 (MOD d s) : Int) = s - 1) ∧
    (dec_op (PRINTNUM d) = OP_PRINTNUM ∧ (dec_r1 (PRINTNUM d) : Int) = d - 1) ∧
    (dec_op (PRINTCHAR d) = OP_PRINTCHAR ∧ (dec_arg (PRINTCHAR d) : Int) = d - 1
        ∧ dec_arg (PRINTCHAR d) < 8) ∧
    (dec_op (PRINTSTR k) = OP_PRINTCHAR ∧ (dec_arg (PRINTSTR k) : Int) = k + 8
        ∧ ¬ dec_arg (PRINTSTR k) < 8 ∧ ((dec_arg (PRINTSTR k) - 8 : Nat) : Int) = k) := by
  simp only [LOAD, CJMP, MOVE, ADD, MOD, PRINTNUM, PRINTCHAR, PRINTSTR, OP2_eq, OP1_eq,
    REG_eq, dec_op, dec_r1, dec_r2, dec_imm, dec_arg, land7_eq, shr3_eq, shr6_eq,
    OP_LOAD, OP_CJMP, OP_MOVE, OP_ADD, OP_MOD, OP_PRINTNUM, OP_PRINTCHAR, Nat.cast_ofNat]
  omega

/-- C3 at `d = 6`, `s = 1`, `v = -23`, `k = 2`. -/
theorem reg_encode_decode_roundtrip_witness :
    (dec_op (LOAD 6 (-23)) = OP_LOAD ∧ (dec_r1 (LOAD 6 (-23)) : Int) = 6 - 1
        ∧ dec_imm (LOAD 6 (-23)) = -23) ∧
    (dec_op (CJMP 6 (-23)) = OP_CJMP ∧ (dec_r1 (CJMP 6 (-23)) : Int) = 6 - 1
        ∧ dec_imm (CJMP 6 (-23)) = -23) ∧
    (dec_op (MOVE 6 1) = OP_MOVE ∧ (dec_r1 (MOVE 6 1) : Int) = 6 - 1
        ∧ (dec_r2 (MOVE 6 1) : Int) = 1 - 1) ∧
    (dec_op (ADD 6 1) = OP_ADD ∧ (dec_r1 (ADD 6 1) : Int) = 6 - 1
        ∧ (dec_r2 (ADD 6 1) : Int) = 1 - 1) ∧
    (dec_op (MOD 6 1) = OP_MOD ∧ (dec_r1 (MOD 6 1) : Int) = 6 - 1
        ∧ (dec_r2 (MOD 6 1) : Int) = 1 - 1) ∧
    (dec_op (PRINTNUM 6) = OP_PRINTNUM ∧ (dec_r1 (PRINTNUM 6) : Int) = 6 - 1) ∧
    (dec_op (PRINTCHAR 6) = OP_PRINTCHAR ∧ (dec_arg (PRINTCHAR 6) : Int) = 6 - 1
        ∧ dec_arg (PRINTCHAR 6) < 8) ∧
    (dec_op (PRINTSTR 2) = OP_PRINTCHAR ∧ (dec_arg (PRINTSTR 2) : Int) = 2 + 8
        ∧ ¬ dec_arg (PRINTSTR 2) < 8 ∧ ((dec_arg (PRINTSTR 2) - 8 : Nat) : Int) = 2) :=
  reg_encode_decode_roundtrip 6 1 (-23) 2 (by decide) (by decide) (by decide) (by decide)

end FizzBuzzReg

namespace FizzBuzzVM

open FizzBuzz

/-- The stored word for `OPARG(op, arg)` with a 4-bit `op`, as a sum of its fields. -/
theorem word_OPARG_eq (op : Nat) (arg : Int) (hop : op < 16) :
    word (OPARG op arg) = (16 * ((2048 + arg) % 65536).toNat + op) % 65536 := by
  have h : op < 2 ^ 4 := by omega
  have hu1 : toU32 ((toUShort (2048 + arg) <<< 4 : Nat) : Int)
      = 2 ^ 4 * ((2048 + arg) % 65536).toNat := by
    simp only [toU32, toUShort, Nat.shiftLeft_eq]
    omega
  have hu2 : toU32 (op : Int) = op := by
    simp only [toU32]
    omega
  simp only [word, OPARG, intOr]
  rw [hu1, hu2, ← Nat.mul_add_lt_is_or h]
  simp only [toUShort, wrapInt]
  omega

/-- C4: stack machine, for every opcode `op` in `0..7` and every immediate `arg` in
`[-2048, 2047]` the 16-bit word stored for `OPARG(op, arg)` is decoded by `runvm` to
`instr & 0xf = op` and `(instr >> 4) - 2048 = arg`. -/
theorem stack_encode_decode_roundtrip (op : Nat) (arg : Int)
    (hop : op ≤ 7) (harg : -2048 ≤ arg ∧ arg ≤ 2047) :
    dec_op (word (OPARG op arg)) = op ∧ dec_arg (word (OPARG op arg)) = arg := by
  rw [word_OPARG_eq op arg (by omega)]
  simp only [dec_op, dec_arg, land15_eq, shr4_eq]
  omega

/-- C4 at `op = OP_CJMP`, `arg = -30`. -/
theorem stack_encode_decode_roundtrip_witness :
    dec_op (word (OPARG 4 (-30))) = 4 ∧ dec_arg (word (OPARG 4 (-30))) = -30 :=
  stack_encode_decode_roundtrip 4 (-30) (by decide) (by decide)

end FizzBuzzVM

namespace FizzBuzz

/-- C5: immediates outside the field range are not rejected, they wrap: for every
integer `v`, `LOAD(d, v)` (`d` in `1..8`) decodes to `((v + 512) mod 1024) - 512` and
the stored word of `OPARG(op, v)` (`op` in `0..7`) decodes to
`((v + 2048) mod 4096) - 2048`; the bounds `-512`, `511`, `-2048`, `2047` round-trip
exactly, `LOAD(d, 512)` is the word `LOAD(d, -512)` and `OPARG(op, 2048)` is stored as
the word of `OPARG(op, -2048)`. -/
theorem immediates_wrap (v d : Int) (op : Nat) (hd : 1 ≤ d ∧ d ≤ 8) (hop : op ≤ 7) :
    FizzBuzzReg.dec_imm (FizzBuzzReg.LOAD d v) = (v + 512) % 1024 - 512 ∧
    FizzBuzzVM.dec_arg (FizzBuzzVM.word (FizzBuzzVM.OPARG op v)) = (v + 2048) % 4096 - 2048 ∧
    FizzBuzzReg.dec_imm (FizzBuzzReg.LOAD d (-512)) = -512 ∧
    FizzBuzzReg.dec_imm (FizzBuzzReg.LOAD d 511) = 511 ∧
    FizzBuzzVM.dec_arg (FizzBuzzVM.word (FizzBuzzVM.OPARG op (-2048))) = -2048 ∧
    FizzBuzzVM.dec_arg (FizzBuzzVM.word (FizzBuzzVM.OPARG op 2047)) = 2047 ∧
    FizzBuzzReg.LOAD d 512 = FizzBuzzReg.LOAD d (-512) ∧
    FizzBuzzVM.word (FizzBuzzVM.OPARG op 2048)
      = FizzBuzzVM.word (FizzBuzzVM.OPARG op (-2048)) := by
  have hreg : ∀ x : Int,
      FizzBuzzReg.dec_imm (FizzBuzzReg.LOAD d x) = (x + 512) % 1024 - 512 := by
    intro x
    simp only [FizzBuzzReg.LOAD, FizzBuzzReg.OP2_eq, FizzBuzzReg.dec_imm, shr6_eq,
      FizzBuzzReg.OP_LOAD, Nat.cast_ofNat]
    omega
  have hvm : ∀ x : Int,
      FizzBuzzVM.dec_arg (FizzBuzzVM.word (FizzBuzzVM.OPARG op x))
        = (x + 2048) % 4096 - 2048 := by
    intro x
    rw [FizzBuzzVM.word_OPARG_eq op x (by omega)]
    simp only [FizzBuzzVM.dec_arg, shr4_eq]
    omega
  refine ⟨hreg v, hvm v, ?_, ?_, ?_, ?_, ?_, ?_⟩
  · rw [hreg]; decide
  · rw [hreg]; decide
  · rw [hvm]; decide
  · rw [hvm]; decide
  · simp only [FizzBuzzReg.LOAD, FizzBuzzReg.OP2_eq]
    omega
  · rw [FizzBuzzVM.word_OPARG_eq op _ (by omega), FizzBuzzVM.word_OPARG_eq op _ (by omega)]
    omega

/-- C5 at `v = 512`, `d = 1`, `op = OP_PUSH`: `+512` is decoded as `-512`, and
`v = 512` is decoded by the stack machine unchanged. -/
theorem immediates_wrap_witness :
    FizzBuzzReg.dec_imm (FizzBuzzReg.LOAD 1 512) = (512 + 512) % 1024 - 512 ∧
    FizzBuzzVM.dec_arg (FizzBuzzVM.word (FizzBuzzVM.OPARG 0 512)) = (512 + 2048) % 4096 - 2048 ∧
    FizzBuzzReg.dec_imm (FizzBuzzReg.LOAD 1 (-512)) = -512 ∧
    FizzBuzzReg.dec_imm (FizzBuzzReg.LOAD 1 511) = 511 ∧
    FizzBuzzVM.dec_arg (FizzBuzzVM.word (FizzBuzzVM.OPARG 0 (-2048))) = -2048 ∧
    FizzBuzzVM.dec_arg (FizzBuzzVM.word (FizzBuzzVM.OPARG 0 2047)) = 2047 ∧
    FizzBuzzReg.LOAD 1 512 = FizzBuzzReg.LOAD 1 (-512) ∧
    FizzBuzzVM.word (FizzBuzzVM.OPARG 0 2048)
      = FizzBuzzVM.word (FizzBuzzVM.OPARG 0 (-2048)) :=
  immediates_wrap 512 1 0 (by decide) (by decide)

end FizzBuzz

/-! ## Register machine: single steps -/

namespace FizzBuzzReg

open FizzBuzz

theorem dec_r1_lt (ci : Nat) : dec_r1 ci < 8 := by
  simp only [dec_r1, land7_eq]
  omega

theorem dec_r2_lt (ci : Nat) : dec_r2 ci < 8 := by
  simp only [dec_r2, land7_eq]
  omega

theorem reg_dec_op_lt (ci : Nat) : dec_op ci < 8 := by
  simp only [dec_op, land7_eq]
  omega

/-- A register inside the array holds the value `R`. -/
theorem reg_get (s : State) (r : Nat) (h : r < s.reg.length) : s.reg[r]? = some (s.R r) := by
  simp [State.R, List.getD, List.getElem?_eq_getElem h]

/-- The step taken at a fetched word. -/
theorem reg_step_fetch (instr : List Nat) (strings : List String) (s : State) (ci : Nat)
    (h : instr[s.pc]? = some ci) : step instr strings s = some (exec strings ci s) := by
  simp only [step, h]

/-- Execution of a `CJMP` word. -/
theorem exec_cjmp (strings : List String) (ci : Nat) (s : State)
    (hop : dec_op ci = OP_CJMP) (hreg : s.reg.length = 8) :
    exec strings ci s =
      if s.R (dec_r1 ci) = 0 then .next { s with pc := sizeAdd s.pc (dec_imm ci) }
      else .next { s with pc := s.pc + 1 } := by
  have hr : s.reg[dec_r1 ci]? = some (s.R (dec_r1 ci)) :=
    reg_get s _ (by have := dec_r1_lt ci; omega)
  simp only [exec, hop, OP_CJMP, hr]

/-- The `size_t` sum `i += arg` is the integer sum whenever that is a `size_t` value. -/
theorem sizeAdd_eq (i : Nat) (arg : Int) (h0 : 0 ≤ (i : Int) + arg)
    (h1 : (i : Int) + arg < 18446744073709551616) : (sizeAdd i arg : Int) = (i : Int) + arg := by
  unfold sizeAdd
  omega

/-- C6: register machine, for every state with `pc < num_instr` whose instruction is
a `CJMP` with decoded register `rA` and offset `rel`: if `R[rA] == 0` the loop
restarts at `i += rel`, which is the index `pc + rel` (not `pc + rel + 1`) whenever
`pc + rel` is an index (a `size_t` value); otherwise the next `pc` is `pc + 1`; in both
cases the registers and the output are unchanged. -/
theorem reg_cjmp_step (instr : List Nat) (strings : List String) (s : State) (ci : Nat)
    (hfetch : instr[s.pc]? = some ci) (hop : dec_op ci = OP_CJMP)
    (hreg : s.reg.length = 8) :
    (s.R (dec_r1 ci) = 0 →
      step instr strings s = some (.next { s with pc := sizeAdd s.pc (dec_imm ci) }) ∧
      (0 ≤ (s.pc : Int) + dec_imm ci → (s.pc : Int) + dec_imm ci < 18446744073709551616 →
        (sizeAdd s.pc (dec_imm ci) : Int) = (s.pc : Int) + dec_imm ci)) ∧
    (s.R (dec_r1 ci) ≠ 0 →
      step instr strings s = some (.next { s with pc := s.pc + 1 })) := by
  rw [reg_step_fetch instr strings s ci hfetch, exec_cjmp strings ci s hop hreg]
  refine ⟨fun h => ⟨by simp only [h, if_true], sizeAdd_eq _ _⟩, fun h => by simp only [h, if_false]⟩

/-- C6 in the canonical program at index 9, `CJMP(6, 9)`, with `r6 = 0`: the next
index is `9 + 9 = 18`. -/
theorem reg_cjmp_step_witness :
    step fizzbuzz strings ⟨9, [15, 1, 3, 5, 15, 0, 0, 0], []⟩
      = some (.next ⟨18, [15, 1, 3, 5, 15, 0, 0, 0], []⟩) :=
  ((reg_cjmp_step fizzbuzz strings ⟨9, [15, 1, 3, 5, 15, 0, 0, 0], []⟩ (CJMP 6 9)
    (by decide) (by decide) (by decide)).1 (by decide)).1

end FizzBuzzReg

namespace FizzBuzzReg

open FizzBuzz

/-- A successful `setReg` advances `pc` by one. -/
theorem setReg_next_pc (s s' : State) (r : Nat) (v : Int) (h : setReg s r v = .next s') :
    s'.pc = s.pc + 1 := by
  unfold setReg at h
  split at h
  · cases h; rfl
  · cases h

/-- Every instruction other than `CJMP` that does not abort advances `pc` by one. -/
theorem exec_next_pc (strings : List String) (ci : Nat) (s s' : State)
    (hop : dec_op ci ≠ OP_CJMP) (h : exec strings ci s = .next s') : s'.pc = s.pc + 1 := by
  have hlt := reg_dec_op_lt ci
  simp only [OP_CJMP] at hop
  have hcases : dec_op ci = 0 ∨ dec_op ci = 1 ∨ dec_op ci = 2 ∨ dec_op ci = 3 ∨ dec_op ci = 4
      ∨ dec_op ci = 6 ∨ dec_op ci = 7 := by omega
  rcases hcases with ho | ho | ho | ho | ho | ho | ho <;> simp only [exec, ho] at h
  · cases h; rfl
  · exact setReg_next_pc _ _ _ _ h
  · split at h
    · exact setReg_next_pc _ _ _ _ h
    · cases h
  · split at h
    · exact setReg_next_pc _ _ _ _ h
    · cases h
  · split at h
    · split at h
      · cases h
      · split at h
        · cases h
        · exact setReg_next_pc _ _ _ _ h
    · cases h
  · split at h
    · split at h
      · cases h; rfl
      · cases h
    · split at h
      · cases h; rfl
      · cases h
  · split at h
    · cases h; rfl
    · cases h

/-- C7 fails as stated: in the canonical program the `CJMP(7, 6)` at index 17, reached
with `r7 = 0` after the number `1` was printed, is taken and execution resumes at index
`23 = 17 + 6`, not at `17 + 1 + 6 = 24`. -/
theorem reg_cjmp_taken_counterexample :
    fizzbuzz[17]? = some (CJMP 7 6) ∧ dec_op (CJMP 7 6) = OP_CJMP ∧ dec_imm (CJMP 7 6) = 6 ∧
    State.R ⟨17, [1, 1, 3, 5, 15, 1, 0, 0], ['1']⟩ (dec_r1 (CJMP 7 6)) = 0 ∧
    step fizzbuzz strings ⟨17, [1, 1, 3, 5, 15, 1, 0, 0], ['1']⟩
      = some (.next ⟨23, [1, 1, 3, 5, 15, 1, 0, 0], ['1']⟩) ∧
    (23 : Int) ≠ 17 + 1 + 6 := by
  decide

/-- C7, amended: register machine, after an instruction at `pc` was executed without
abort, the program counter is `pc + rel` (computed as `size_t`, so exactly `pc + rel`
whenever that is a `size_t` value) when the instruction is a `CJMP` that is taken, and
`pc + 1` in all other cases, a `CJMP` that is not taken included. -/
theorem reg_next_pc (instr : List Nat) (strings : List String) (s s' : State) (ci : Nat)
    (hfetch : instr[s.pc]? = some ci) (hreg : s.reg.length = 8)
    (hstep : step instr strings s = some (.next s')) :
    (dec_op ci = OP_CJMP ∧ s.R (dec_r1 ci) = 0 →
      s'.pc = sizeAdd s.pc (dec_imm ci) ∧
      (0 ≤ (s.pc : Int) + dec_imm ci → (s.pc : Int) + dec_imm ci < 18446744073709551616 →
        (s'.pc : Int) = (s.pc : Int) + dec_imm ci)) ∧
    (¬ (dec_op ci = OP_CJMP ∧ s.R (dec_r1 ci) = 0) → s'.pc = s.pc + 1) := by
  rw [reg_step_fetch instr strings s ci hfetch] at hstep
  have hexec : exec strings ci s = .next s' := Option.some.inj hstep
  constructor
  · rintro ⟨hop, hz⟩
    rw [exec_cjmp strings ci s hop hreg, if_pos hz] at hexec
    cases hexec
    exact ⟨rfl, sizeAdd_eq _ _⟩
  · intro hn
    by_cases hop : dec_op ci = OP_CJMP
    · have hz : s.R (dec_r1 ci) ≠ 0 := fun hz => hn ⟨hop, hz⟩
      rw [exec_cjmp strings ci s hop hreg, if_neg hz] at hexec
      cases hexec
      rfl
    · exact exec_next_pc strings ci s s' hop hexec

/-- C7 amended, in the canonical program at index 17 (`CJMP(7, 6)`, taken): the next
index is `17 + 6 = 23`. -/
theorem reg_next_pc_witness :
    (23 : Nat) = sizeAdd 17 (dec_imm (CJMP 7 6)) ∧ ((23 : Nat) : Int) = (17 : Nat) + dec_imm (CJMP 7 6) :=
  have h := (reg_next_pc fizzbuzz strings ⟨17, [1, 1, 3, 5, 15, 1, 0, 0], ['1']⟩
    ⟨23, [1, 1, 3, 5, 15, 1, 0, 0], ['1']⟩ (CJMP 7 6) (by decide) (by decide) (by decide)).1
    ⟨by decide, by decide⟩
  ⟨h.1, h.2 (by decide) (by decide)⟩

end FizzBuzzReg

/-! ## Stack machine: single steps -/

namespace FizzBuzzVM

open FizzBuzz

/-- The step taken at a fetched word. -/
theorem stack_step_fetch (instr : List Nat) (strings : List String) (s : State) (w : Nat)
    (h : instr[s.pc]? = some w) : step instr strings s = some (exec strings w s) := by
  simp only [step, h]

/-- A cell below `top` holds a value when `top` is inside the array. -/
theorem rd_below_top (s : State) (j : Int) (hj : 0 < j) (hlo : j ≤ s.top)
    (hhi : s.top ≤ (s.stack.length : Int)) : ∃ v, rd s.stack (s.top - j) = some v := by
  have h0 : 0 ≤ s.top - j := by omega
  have hlt : (s.top - j).toNat < s.stack.length := by omega
  exact ⟨s.stack[(s.top - j).toNat], by simp only [rd, h0, if_true, List.getElem?_eq_getElem hlt]⟩

/-- C8: stack machine, a `CJMP` whose decoded `rel` is `0` is a no-op in every state,
the empty stack included: it does not abort, leaves the stack array, `top` and the
output unchanged and only advances `pc` to `pc + 1`. -/
theorem stack_cjmp_zero_nop (instr : List Nat) (strings : List String) (s : State) (w : Nat)
    (hfetch : instr[s.pc]? = some w) (hop : dec_op w = OP_CJMP) (hrel : dec_arg w = 0) :
    step instr strings s = some (.next { s with pc := s.pc + 1 }) := by
  rw [stack_step_fetch instr strings s w hfetch]
  simp only [exec, hop, OP_CJMP, hrel, ne_eq, not_true_eq_false, if_false]

/-- C8 on the empty stack: the one-word program `CJMP(0)`. -/
theorem stack_cjmp_zero_nop_witness :
    step [word (CJMP 0)] strings (initState (List.replicate 16 0))
      = some (.next ⟨1, List.replicate 16 0, 0, []⟩) :=
  stack_cjmp_zero_nop [word (CJMP 0)] strings (initState (List.replicate 16 0)) (word (CJMP 0))
    (by decide) (by decide) (by decide)

/-- C9: stack machine, a `CJMP` whose decoded `rel` is `1` is a `POP`: in every state
with `top > 0` (and `top` inside the array, `pc` below a `size_t` program length),
whatever the value on top, the step decrements `top` by one, leaves the array cells and
the output unchanged, and the next `pc` is `pc + 1`. -/
theorem stack_cjmp_one_pop (instr : List Nat) (strings : List String) (s : State) (w : Nat)
    (hfetch : instr[s.pc]? = some w) (hop : dec_op w = OP_CJMP) (hrel : dec_arg w = 1)
    (htop : 0 < s.top) (hbound : s.top ≤ (s.stack.length : Int))
    (hlen : instr.length < 18446744073709551616) :
    step instr strings s = some (.next { s with top := s.top - 1, pc := s.pc + 1 }) := by
  rw [stack_step_fetch instr strings s w hfetch]
  obtain ⟨v, hv⟩ := rd_below_top s 1 (by omega) (by omega) hbound
  have hpc : s.pc < instr.length := by
    by_contra hge
    rw [List.getElem?_eq_none (by omega)] at hfetch
    cases hfetch
  have hjump : sizeAdd s.pc 1 = s.pc + 1 := by
    unfold sizeAdd
    omega
  simp only [exec, hop, OP_CJMP, hrel, ne_eq, one_ne_zero, not_false_eq_true, if_true, htop, hv,
    hjump, ite_self]

/-- C9 with a zero and with a non-zero value on top of a two-element stack. -/
theorem stack_cjmp_one_pop_witness :
    step [word (CJMP 1)] strings ⟨0, [7, 0] ++ List.replicate 14 0, 2, []⟩
      = some (.next ⟨1, [7, 0] ++ List.replicate 14 0, 1, []⟩) ∧
    step [word (CJMP 1)] strings ⟨0, [0, 7] ++ List.replicate 14 0, 2, []⟩
      = some (.next ⟨1, [0, 7] ++ List.replicate 14 0, 1, []⟩) :=
  ⟨stack_cjmp_one_pop [word (CJMP 1)] strings ⟨0, [7, 0] ++ List.replicate 14 0, 2, []⟩
      (word (CJMP 1)) (by decide) (by decide) (by decide) (by decide) (by decide) (by decide),
   stack_cjmp_one_pop [word (CJMP 1)] strings ⟨0, [0, 7] ++ List.replicate 14 0, 2, []⟩
      (word (CJMP 1)) (by decide) (by decide) (by decide) (by decide) (by decide) (by decide)⟩

/-- C10: stack machine with its 16-cell array, `DUP` with `top == 0`, `DUP` with
`top == 16` and `PUSH` with `top == 16` fail their assertion: the step yields no
successor state and the run from that state aborts, whatever fuel it is given. -/
theorem stack_overflow_fatal (instr : List Nat) (strings : List String) (s : State) (w : Nat)
    (hfetch : instr[s.pc]? = some w) (hcap : s.stack.length = 16)
    (h : (dec_op w = OP_DUP ∧ (s.top = 0 ∨ s.top = 16)) ∨ (dec_op w = OP_PUSH ∧ s.top = 16)) :
    step instr strings s = some (.fault .assertion) ∧
    ∀ fuel, run instr strings (fuel + 1) s = .aborted .assertion := by
  have hstep : step instr strings s = some (.fault .assertion) := by
    rw [stack_step_fetch instr strings s w hfetch]
    rcases h with ⟨hop, ht | ht⟩ | ⟨hop, ht⟩
    · simp [exec, hop, OP_DUP, ht]
    · simp [exec, hop, OP_DUP, ht, max_stack, hcap]
    · simp [exec, hop, OP_PUSH, ht, max_stack, hcap]
  refine ⟨hstep, fun fuel => ?_⟩
  simp only [run, hstep]

/-- C10 at the three cases: `DUP` on the empty stack, `DUP` on the full stack, `PUSH`
on the full stack. -/
theorem stack_overflow_fatal_witness :
    (step [word OP_DUP] strings ⟨0, List.replicate 16 0, 0, []⟩ = some (.fault .assertion) ∧
      ∀ fuel, run [word OP_DUP] strings (fuel + 1) ⟨0, List.replicate 16 0, 0, []⟩
        = .aborted .assertion) ∧
    (step [word OP_DUP] strings ⟨0, List.replicate 16 0, 16, []⟩ = some (.fault .assertion) ∧
      ∀ fuel, run [word OP_DUP] strings (fuel + 1) ⟨0, List.replicate 16 0, 16, []⟩
        = .aborted .assertion) ∧
    (step [word (PUSHIMM 5)] strings ⟨0, List.replicate 16 0, 16, []⟩ = some (.fault .assertion) ∧
      ∀ fuel, run [word (PUSHIMM 5)] strings (fuel + 1) ⟨0, List.replicate 16 0, 16, []⟩
        = .aborted .assertion) :=
  ⟨stack_overflow_fatal [word OP_DUP] strings ⟨0, List.replicate 16 0, 0, []⟩ (word OP_DUP)
      (by decide) (by decide) (by decide),
   stack_overflow_fatal [word OP_DUP] strings ⟨0, List.replicate 16 0, 16, []⟩ (word OP_DUP)
      (by decide) (by decide) (by decide),
   stack_overflow_fatal [word (PUSHIMM 5)] strings ⟨0, List.replicate 16 0, 16, []⟩
      (word (PUSHIMM 5)) (by decide) (by decide) (by decide)⟩

end FizzBuzzVM

/-! ## Stack machine: cells at or above `top` are dead -/

namespace FizzBuzzVM

open FizzBuzz

theorem rd_wr (a a' : List Int) (i v : Int) (h : wr a i v = some a') (j : Int) :
    rd a' j = if j = i then some v else rd a j := by
  unfold wr at h
  split at h
  · rename_i hi
    cases h
    unfold rd
    by_cases hj : 0 ≤ j
    · by_cases hji : j = i
      · subst hji
        simp only [hj, if_true, List.getElem?_set_self hi.2]
      · have hne : i.toNat ≠ j.toNat := by omega
        simp only [hj, if_true, hji, if_false, List.getElem?_set_ne hne]
    · have hji : j ≠ i := by omega
      simp only [hj, if_false, hji]
  · cases h

theorem wr_length (a a' : List Int) (i v : Int) (h : wr a i v = some a') :
    a'.length = a.length := by
  unfold wr at h
  split at h
  · cases h
    exact List.length_set _ _ _
  · cases h

theorem wr_none_congr (a b : List Int) (i v : Int) (hlen : a.length = b.length)
    (h : wr a i v = none) : wr b i v = none := by
  unfold wr at h ⊢
  rw [← hlen]
  split at h
  · cases h
  · rename_i hi
    simp only [hi, if_false]

/-- Writing the same value at the same index keeps two arrays in agreement below any
`top'` whose cells other than the written one were in agreement before. -/
theorem wr_agree (a b : List Int) (i v top top' : Int) (hlen : a.length = b.length)
    (hcells : ∀ j : Int, j < top → rd a j = rd b j)
    (hidx : ∀ j : Int, j < top' → j ≠ i → j < top) :
    (wr a i v = none ∧ wr b i v = none) ∨
    ∃ a' b', wr a i v = some a' ∧ wr b i v = some b' ∧ a'.length = b'.length ∧
      ∀ j : Int, j < top' → rd a' j = rd b' j := by
  cases ha : wr a i v with
  | none => exact Or.inl ⟨rfl, wr_none_congr a b i v hlen ha⟩
  | some a' =>
    cases hb : wr b i v with
    | none =>
      have := wr_none_congr b a i v hlen.symm hb
      rw [ha] at this
      cases this
    | some b' =>
      refine Or.inr ⟨a', b', rfl, rfl, ?_, ?_⟩
      · rw [wr_length a a' i v ha, wr_length b b' i v hb, hlen]
      · intro j hj
        rw [rd_wr a a' i v ha j, rd_wr b b' i v hb j]
        by_cases hji : j = i
        · simp only [hji, if_true]
        · simp only [hji, if_false]
          exact hcells j (hidx j hj hji)

end FizzBuzzVM

namespace FizzBuzzVM

open FizzBuzz

theorem stack_dec_op_lt (w : Nat) : dec_op w < 16 := by
  simp only [dec_op, land15_eq]
  omega

/-- A word whose low four bits are `8..15` takes the `default:` branch. -/
theorem exec_unknown (strings : List String) (w : Nat) (s : State) (h : 8 ≤ dec_op w) :
    exec strings w s = .fault .unknownOpcode := by
  unfold exec
  split <;> first | omega | rfl

/-- Executing the same word in two states that agree gives results that agree. -/
theorem exec_agree (strings : List String) (w : Nat) (s t : State) (h : Agree s t) :
    StepAgree (exec strings w s) (exec strings w t) := by
  obtain ⟨pc, a, top, out⟩ := s
  obtain ⟨pc', b, top', out'⟩ := t
  obtain ⟨hpc, htop, hout, hlen, hcells⟩ := h
  simp only at hpc htop hout hlen hcells
  subst hpc htop hout
  have hr1 : rd b (top - 1) = rd a (top - 1) := (hcells (top - 1) (by omega)).symm
  have hr2 : rd b (top - 2) = rd a (top - 2) := (hcells (top - 2) (by omega)).symm
  rcases Nat.lt_or_ge (dec_op w) 8 with hlt | hge
  swap
  · rw [exec_unknown strings w _ hge, exec_unknown strings w _ hge]
    simp only [StepAgree]
  have hcases : dec_op w = 0 ∨ dec_op w = 1 ∨ dec_op w = 2 ∨ dec_op w = 3 ∨ dec_op w = 4
      ∨ dec_op w = 5 ∨ dec_op w = 6 ∨ dec_op w = 7 := by omega
  rcases hcases with ho | ho | ho | ho | ho | ho | ho | ho <;>
    simp only [exec, ho, max_stack, hr1, hr2, ← hlen]
  · -- PUSH
    by_cases hlt : top < (a.length : Int)
    · simp only [hlt, if_true]
      rcases wr_agree a b top (dec_arg w) top (top + 1) hlen hcells
        (by intro j h1 h2; omega) with ⟨h1, h2⟩ | ⟨a', b', h1, h2, hl, hc⟩
      · simp only [h1, h2, StepAgree]
      · simp only [h1, h2, StepAgree]
        exact ⟨rfl, rfl, rfl, hl, hc⟩
    · simp only [hlt, if_false, StepAgree]
  · -- DUP
    by_cases hlt : 0 < top ∧ top < (a.length : Int)
    · simp only [hlt, and_self, if_true]
      cases hv : rd a (top - 1) with
      | none => simp only [StepAgree]
      | some v =>
        simp only
        rcases wr_agree a b top v top (top + 1) hlen hcells
          (by intro j h1 h2; omega) with ⟨h1, h2⟩ | ⟨a', b', h1, h2, hl, hc⟩
        · simp only [h1, h2, StepAgree]
        · simp only [h1, h2, StepAgree]
          exact ⟨rfl, rfl, rfl, hl, hc⟩
    · simp only [hlt, if_false, StepAgree]
  · -- ADD
    by_cases harg : dec_arg w = 0
    · simp only [harg, if_true]
      by_cases hlt : 1 < top
      · simp only [hlt, if_true]
        cases hv2 : rd a (top - 2) with
        | none => simp only [StepAgree]
        | some x =>
          cases hv1 : rd a (top - 1) with
          | none => simp only [StepAgree]
          | some y =>
            simp only
            rcases wr_agree a b (top - 2) (wrapInt (x + y)) top (top - 1) hlen hcells
              (by intro j h1 h2; omega) with ⟨h1, h2⟩ | ⟨a', b', h1, h2, hl, hc⟩
            · simp only [h1, h2, StepAgree]
            · simp only [h1, h2, StepAgree]
              exact ⟨rfl, rfl, rfl, hl, hc⟩
      · simp only [hlt, if_false, StepAgree]
    · simp only [harg, if_false]
      by_cases hlt : 0 < top
      · simp only [hlt, if_true]
        cases hv1 : rd a (top - 1) with
        | none => simp only [StepAgree]
        | some y =>
          simp only
          rcases wr_agree a b (top - 1) (wrapInt (y + dec_arg w)) top top hlen hcells
            (by intro j h1 h2; omega) with ⟨h1, h2⟩ | ⟨a', b', h1, h2, hl, hc⟩
          · simp only [h1, h2, StepAgree]
          · simp only [h1, h2, StepAgree]
            exact ⟨rfl, rfl, rfl, hl, hc⟩
      · simp only [hlt, if_false, StepAgree]
  · -- REMAINDER
    by_cases hlt : 1 < top
    · simp only [hlt, if_true]
      cases hv2 : rd a (top - 2) with
      | none => simp only [StepAgree]
      | some x =>
        cases hv1 : rd a (top - 1) with
        | none => simp only [StepAgree]
        | some y =>
          simp only
          by_cases hy : y = 0
          · simp only [hy, if_true, StepAgree]
          · simp only [hy, if_false]
            by_cases hov : x = INT_MIN ∧ y = -1
            · simp only [hov, and_self, if_true, StepAgree]
            · simp only [hov, if_false]
              rcases wr_agree a b (top - 2) (Int.tmod x y) top (top - 1) hlen hcells
                (by intro j h1 h2; omega) with ⟨h1, h2⟩ | ⟨a', b', h1, h2, hl, hc⟩
              · simp only [h1, h2, StepAgree]
              · simp only [h1, h2, StepAgree]
                exact ⟨rfl, rfl, rfl, hl, hc⟩
    · simp only [hlt, if_false, StepAgree]
  · -- CJMP
    by_cases harg : dec_arg w = 0
    · simp only [harg, ne_eq, not_true_eq_false, if_false, StepAgree]
      exact ⟨rfl, rfl, rfl, hlen, hcells⟩
    · simp only [harg, ne_eq, not_false_eq_true, if_true]
      by_cases hlt : 0 < top
      · simp only [hlt, if_true]
        cases hv1 : rd a (top - 1) with
        | none => simp only [StepAgree]
        | some y =>
          simp only
          by_cases hy : y = 0
          · simp only [hy, if_true, StepAgree]
            exact ⟨rfl, rfl, rfl, hlen, fun j hj => hcells j (by have hj' : j < top - 1 := hj; omega)⟩
          · simp only [hy, if_false, StepAgree]
            exact ⟨rfl, rfl, rfl, hlen, fun j hj => hcells j (by have hj' : j < top - 1 := hj; omega)⟩
      · simp only [hlt, if_false, StepAgree]
  · -- PRINTCHAR
    by_cases harg : dec_arg w = 0
    · simp only [harg, if_true]
      by_cases hlt : 0 < top
      · simp only [hlt, if_true]
        cases hv1 : rd a (top - 1) with
        | none => simp only [StepAgree]
        | some y =>
          simp only [StepAgree]
          exact ⟨rfl, rfl, rfl, hlen, fun j hj => hcells j (by have hj' : j < top - 1 := hj; omega)⟩
      · simp only [hlt, if_false, StepAgree]
    · simp only [harg, if_false]
      by_cases hs : 0 < dec_arg w ∧ dec_arg w ≤ (strings.length : Int)
      · simp only [hs, and_self, if_true]
        cases hstr : strings[(dec_arg w - 1).toNat]? with
        | none => simp only [StepAgree]
        | some str =>
          simp only [StepAgree]
          exact ⟨rfl, rfl, rfl, hlen, hcells⟩
      · simp only [hs, if_false, StepAgree]
  · -- PRINTNUM
    by_cases hlt : 0 < top
    · simp only [hlt, if_true]
      cases hv1 : rd a (top - 1) with
      | none => simp only [StepAgree]
      | some y =>
        simp only [StepAgree]
        exact ⟨rfl, rfl, rfl, hlen, fun j hj => hcells j (by have hj' : j < top - 1 := hj; omega)⟩
    · simp only [hlt, if_false, StepAgree]
  · -- STOP
    simp only [StepAgree]
    exact ⟨rfl, rfl, rfl, hlen, hcells⟩

end FizzBuzzVM

namespace FizzBuzzVM

open FizzBuzz

/-- The returned value does not depend on cells at or above `top`. -/
theorem ret_agree (s t : State) (h : Agree s t) : ret s = ret t := by
  obtain ⟨_, htop, hout, _, hcells⟩ := h
  unfold ret
  rw [← htop, ← hout, ← hcells (s.top - 1) (by omega)]

/-- Runs from two states that agree end in the same way. -/
theorem run_agree (instr : List Nat) (strings : List String) (fuel : Nat) :
    ∀ s t : State, Agree s t → run instr strings fuel s = run instr strings fuel t := by
  induction fuel with
  | zero => intro s t _; rfl
  | succ n ih =>
    intro s t h
    have hpc : s.pc = t.pc := h.1
    simp only [run, step, ← hpc]
    cases hw : instr[s.pc]? with
    | none => exact ret_agree s t h
    | some w =>
      have hstep := exec_agree strings w s t h
      simp only
      cases hs : exec strings w s with
      | next s' =>
        cases ht : exec strings w t with
        | next t' =>
          rw [hs, ht] at hstep
          exact ih s' t' hstep
        | stop t' => rw [hs, ht] at hstep; exact hstep.elim
        | fault g => rw [hs, ht] at hstep; exact hstep.elim
      | stop s' =>
        cases ht : exec strings w t with
        | next t' => rw [hs, ht] at hstep; exact hstep.elim
        | stop t' =>
          rw [hs, ht] at hstep
          exact ret_agree s' t' hstep
        | fault g => rw [hs, ht] at hstep; exact hstep.elim
      | fault f =>
        cases ht : exec strings w t with
        | next t' => rw [hs, ht] at hstep; exact hstep.elim
        | stop t' => rw [hs, ht] at hstep; exact hstep.elim
        | fault g =>
          rw [hs, ht] at hstep
          simp only [StepAgree] at hstep
          rw [hstep]

/-- From the empty stack, the run does not depend on what the uninitialised array
holds. -/
theorem runvm_cells (fuel : Nat) (cells cells' : List Int) (instr : List Nat)
    (strings : List String) (h : cells.length = cells'.length) :
    runvm fuel cells instr strings = runvm fuel cells' instr strings := by
  apply run_agree
  refine ⟨rfl, rfl, rfl, h, ?_⟩
  intro i hi
  have hneg : ¬ (0 ≤ i) := by
    have : i < 0 := hi
    omega
  simp only [rd, initState, hneg, if_false]

end FizzBuzzVM

/-! ## The canonical runs -/

namespace FizzBuzzReg

open FizzBuzz

/-- A run that ended keeps its result when given more fuel. -/
theorem reg_run_fuel_mono (instr : List Nat) (strings : List String) (n k : Nat) :
    ∀ s : State, run instr strings n s ≠ .outOfFuel →
      run instr strings (n + k) s = run instr strings n s := by
  induction n with
  | zero => intro s h; exact absurd rfl h
  | succ n ih =>
    intro s h
    rw [Nat.add_right_comm]
    simp only [run] at h ⊢
    cases hs : step instr strings s with
    | none => rfl
    | some r =>
      cases r with
      | next s' =>
        rw [hs] at h
        exact ih s' h
      | stop s' => rfl
      | fault f => rfl

/-- The canonical run, evaluated with the fuel it needs (1774 instructions and the
final loop test). -/
theorem reg_canonical_run_eval :
    runvm 1775 fizzbuzz strings = .returned 0 expectedOutput := by
  decide!

/-- C1: the register machine run on the canonical `fizzbuzz` program and `strings`
table, from zeroed registers and `pc = 0`, ends without abort once it has fuel for its
1775 loop tests, returns 0, and has written exactly the lines for `n = 1..100`
(`FizzBuzz` if 15 divides `n`, else `Fizz` if 3 does, else `Buzz` if 5 does, else `n`
in decimal), each followed by one newline. -/
theorem reg_canonical_run (fuel : Nat) (hfuel : 1775 ≤ fuel) :
    runvm fuel fizzbuzz strings = .returned 0 expectedOutput := by
  obtain ⟨k, rfl⟩ := Nat.exists_eq_add_of_le hfuel
  have h := reg_run_fuel_mono fizzbuzz strings 1775 k initState
    (by rw [show run fizzbuzz strings 1775 initState = _ from reg_canonical_run_eval]
        exact fun h => Outcome.noConfusion h)
  exact h.trans reg_canonical_run_eval

/-- C1 with fuel 2000. -/
theorem reg_canonical_run_witness :
    runvm 2000 fizzbuzz strings = .returned 0 expectedOutput :=
  reg_canonical_run 2000 (by decide)

end FizzBuzzReg

namespace FizzBuzzVM

open FizzBuzz

/-- A run that ended keeps its result when given more fuel. -/
theorem stack_run_fuel_mono (instr : List Nat) (strings : List String) (n k : Nat) :
    ∀ s : State, run instr strings n s ≠ .outOfFuel →
      run instr strings (n + k) s = run instr strings n s := by
  induction n with
  | zero => intro s h; exact absurd rfl h
  | succ n ih =>
    intro s h
    rw [Nat.add_right_comm]
    simp only [run] at h ⊢
    cases hs : step instr strings s with
    | none => rfl
    | some r =>
      cases r with
      | next s' =>
        rw [hs] at h
        exact ih s' h
      | stop s' => rfl
      | fault f => rfl

/-- The canonical run from a zero-filled array, evaluated with the fuel it needs (2169
instructions and the final loop test). -/
theorem stack_canonical_run_eval :
    runvm 2170 (List.replicate 16 0) fizzbuzz strings = .returned 0 expectedOutput := by
  decide!

/-- C2: the stack machine run on the canonical `fizzbuzz` program and `strings` table
of `fizzbuzzvm.c`, from `top = 0` and `pc = 0` and whatever the 16 uninitialised cells
hold, ends without abort once it has fuel for its 2170 loop tests, returns 0, and has
written the lines for `n = 1..100`, the same output (and return value) as the canonical
run of the register machine. -/
theorem stack_canonical_run (fuel : Nat) (cells : List Int) (hfuel : 2170 ≤ fuel)
    (hcells : cells.length = 16) :
    runvm fuel cells fizzbuzz strings = .returned 0 expectedOutput ∧
    runvm fuel cells fizzbuzz strings
      = FizzBuzzReg.runvm 1775 FizzBuzzReg.fizzbuzz FizzBuzzReg.strings := by
  have hzero : runvm fuel cells fizzbuzz strings = .returned 0 expectedOutput := by
    rw [runvm_cells fuel cells (List.replicate 16 0) fizzbuzz strings
      (by rw [hcells, List.length_replicate])]
    obtain ⟨k, rfl⟩ := Nat.exists_eq_add_of_le hfuel
    have h := stack_run_fuel_mono fizzbuzz strings 2170 k (initState (List.replicate 16 0))
      (by rw [show run fizzbuzz strings 2170 (initState (List.replicate 16 0)) = _
            from stack_canonical_run_eval]
          exact fun h => Outcome.noConfusion h)
    exact h.trans stack_canonical_run_eval
  exact ⟨hzero, hzero.trans FizzBuzzReg.reg_canonical_run_eval.symm⟩

/-- C2 with fuel 2500 and the cells holding `1, ..., 16`. -/
theorem stack_canonical_run_witness :
    runvm 2500 ([1, 2, 3, 4, 5, 6, 7, 8, 9, 10, 11, 12, 13, 14, 15, 16]) fizzbuzz strings = .returned 0 expectedOutput ∧
    runvm 2500 ([1, 2, 3, 4, 5, 6, 7, 8, 9, 10, 11, 12, 13, 14, 15, 16]) fizzbuzz strings
      = FizzBuzzReg.runvm 1775 FizzBuzzReg.fizzbuzz FizzBuzzReg.strings :=
  stack_canonical_run 2500 ([1, 2, 3, 4, 5, 6, 7, 8, 9, 10, 11, 12, 13, 14, 15, 16]) (by decide) (by decide)

end FizzBuzzVM

/-! ## Register machine: data instructions -/

namespace FizzBuzzReg

open FizzBuzz

/-- Execution of a `MOD` word. -/
theorem exec_mod (strings : List String) (ci : Nat) (s : State)
    (hop : dec_op ci = OP_MOD) (hreg : s.reg.length = 8) :
    exec strings ci s =
      if s.R (dec_r2 ci) = 0 then .fault .divByZero
      else if s.R (dec_r1 ci) = INT_MIN ∧ s.R (dec_r2 ci) = -1 then .fault .remOverflow
      else .next { s with reg := s.reg.set (dec_r1 ci) (Int.tmod (s.R (dec_r1 ci)) (s.R (dec_r2 ci))),
                          pc := s.pc + 1 } := by
  have h1 : s.reg[dec_r1 ci]? = some (s.R (dec_r1 ci)) :=
    reg_get s _ (by have := dec_r1_lt ci; omega)
  have h2 : s.reg[dec_r2 ci]? = some (s.R (dec_r2 ci)) :=
    reg_get s _ (by have := dec_r2_lt ci; omega)
  have hlt : dec_r1 ci < s.reg.length := by have := dec_r1_lt ci; omega
  simp only [exec, hop, OP_MOD, h1, h2, setReg, hlt, if_true]

/-- C11: register machine, `MOD rD, rS` executed in a state with `R[rS] == 0` is a
fatal abort (the fault of the native `%`): the step yields no successor state, in
particular none with `R[rD]` set to 0 or left unchanged, and the run from that state
aborts whatever fuel it is given. -/
theorem reg_mod_by_zero_fatal (instr : List Nat) (strings : List String) (s : State) (ci : Nat)
    (hfetch : instr[s.pc]? = some ci) (hop : dec_op ci = OP_MOD) (hreg : s.reg.length = 8)
    (hzero : s.R (dec_r2 ci) = 0) :
    step instr strings s = some (.fault .divByZero) ∧
    (∀ s', step instr strings s ≠ some (.next s')) ∧
    ∀ fuel, run instr strings (fuel + 1) s = .aborted .divByZero := by
  have hstep : step instr strings s = some (.fault .divByZero) := by
    rw [reg_step_fetch instr strings s ci hfetch, exec_mod strings ci s hop hreg, if_pos hzero]
  refine ⟨hstep, fun s' h => ?_, fun fuel => ?_⟩
  · rw [hstep] at h
    cases h
  · simp only [run, hstep]

/-- C11 at the one-word program `MOD(1, 2)` from zeroed registers. -/
theorem reg_mod_by_zero_fatal_witness :
    step [ MOD 1 2 ] strings initState = some (.fault .divByZero) ∧
    (∀ s', step [ MOD 1 2 ] strings initState ≠ some (.next s')) ∧
    ∀ fuel, run [ MOD 1 2 ] strings (fuel + 1) initState = .aborted .divByZero :=
  reg_mod_by_zero_fatal [ MOD 1 2 ] strings initState (MOD 1 2)
    (by decide) (by decide) (by decide) (by decide)

end FizzBuzzReg

namespace FizzBuzz

/-- The remainder `Int.tmod a b` is the C remainder of `a` by `b != 0`: it differs from
`a` by a multiple of `b`, is smaller than `b` in absolute value and has the sign of `a`. -/
theorem tmod_spec (a b : Int) (hb : b ≠ 0) :
    (∃ q, a = b * q + Int.tmod a b) ∧ (Int.tmod a b).natAbs < b.natAbs ∧
    (0 ≤ a → 0 ≤ Int.tmod a b) ∧ (a ≤ 0 → Int.tmod a b ≤ 0) := by
  refine ⟨⟨a.tdiv b, (Int.tdiv_add_tmod a b).symm⟩, ?_, Int.tmod_nonneg b, ?_⟩
  · have hpos : 0 < b.natAbs := Int.natAbs_pos.mpr hb
    rcases a with m | m <;> rcases b with n | n <;>
      simp only [Int.tmod, Int.natAbs_neg, Int.natAbs_ofNat, Int.natAbs_negSucc, Int.ofNat_eq_coe,
        Int.natAbs_ofNat] at hpos ⊢ <;>
      exact Nat.mod_lt _ hpos
  · intro ha
    rcases a with m | m
    · have hm : (m : Int) = 0 := by
        have : (0 : Int) ≤ m := Int.ofNat_nonneg m
        exact Int.le_antisymm ha this
      simp only [Int.ofNat_eq_coe, hm, Int.zero_tmod, Int.le_refl]
    · rcases b with n | n <;> exact Int.neg_nonpos_of_nonneg (Int.ofNat_nonneg _)

end FizzBuzz

namespace FizzBuzzReg

open FizzBuzz

/-- Reading a register after an assignment to register `i`. -/
theorem R_set (s : State) (i r : Nat) (v : Int) (hi : i < s.reg.length) :
    State.R { s with reg := s.reg.set i v, pc := s.pc + 1 } r = if r = i then v else s.R r := by
  simp only [State.R, List.getD_eq_getElem?_getD, List.getElem?_set]
  by_cases h : r = i
  · subst h
    simp [hi]
  · have h' : ¬ i = r := fun e => h e.symm
    simp [h, h']

/-- The effect of the assignment `reg[r] = v` of a data instruction. -/
theorem setReg_writes (s : State) (r : Nat) (v : Int) (hr : r < s.reg.length) :
    ∃ s', setReg s r v = .next s' ∧ Writes s s' r v := by
  refine ⟨{ s with reg := s.reg.set r v, pc := s.pc + 1 }, by simp only [setReg, hr, if_true], ?_⟩
  refine ⟨?_, fun r' hne => ?_, ?_, rfl, rfl⟩
  · rw [R_set s r r v hr, if_pos rfl]
  · rw [R_set s r r' v hr, if_neg hne]
  · exact List.length_set _ _ _

/-- A sum inside the 32-bit range is not changed by the wrap. -/
theorem wrapInt_eq (x : Int) (h : -2147483648 ≤ x ∧ x < 2147483648) : wrapInt x = x := by
  unfold wrapInt
  omega

/-- C15 fails as stated: `MOD(1, 2)` with `R[rD] = INT_MIN` and `R[rS] = -1` has
`R[rS] != 0`, yet the step sets no register: `INT_MIN % -1` is the fault of the native
`%`. The state is reached from zeroed registers by `LOAD(1, -512)`, 22 times
`ADD(1, 1)` (doubling to `-2^31` without overflow) and `LOAD(2, -1)`. -/
theorem reg_mod_overflow_counterexample :
    dec_op (MOD 1 2) = OP_MOD ∧
    State.R ⟨0, [-2147483648, -1, 0, 0, 0, 0, 0, 0], []⟩ (dec_r1 (MOD 1 2)) = INT_MIN ∧
    State.R ⟨0, [-2147483648, -1, 0, 0, 0, 0, 0, 0], []⟩ (dec_r2 (MOD 1 2)) ≠ 0 ∧
    step [ MOD 1 2 ] strings ⟨0, [-2147483648, -1, 0, 0, 0, 0, 0, 0], []⟩
      = some (.fault .remOverflow) ∧
    runvm 30 ([LOAD 1 (-512)] ++ List.replicate 22 (ADD 1 1) ++ [LOAD 2 (-1), MOD 1 2])
      strings = .aborted .remOverflow := by
  refine ⟨by decide, by decide, by decide, by decide, by decide!⟩

/-- C15, amended: register machine, for every state and every word with opcode `LOAD`,
`MOVE`, `ADD` or `MOD` (with `R[rS] != 0` and not `R[rD] == INT_MIN` with `R[rS] == -1`
for `MOD`, and a sum inside the 32-bit range for `ADD`) the step sets `R[rD]` to `imm`, `R[rS]`, `R[rD] + R[rS]` resp. the C remainder of
`R[rD]` by `R[rS]` (a value congruent to `R[rD]` modulo `R[rS]`, smaller than `R[rS]`
in absolute value, with the sign of `R[rD]`), leaves every other register unchanged,
writes nothing and advances `pc` by one; `NOP` changes nothing but `pc`. -/
theorem reg_data_step (instr : List Nat) (strings : List String) (s : State) (ci : Nat)
    (hfetch : instr[s.pc]? = some ci) (hreg : s.reg.length = 8) :
    (dec_op ci = OP_NOP → step instr strings s = some (.next { s with pc := s.pc + 1 })) ∧
    (dec_op ci = OP_LOAD →
      ∃ s', step instr strings s = some (.next s') ∧ Writes s s' (dec_r1 ci) (dec_imm ci)) ∧
    (dec_op ci = OP_MOVE →
      ∃ s', step instr strings s = some (.next s') ∧
        Writes s s' (dec_r1 ci) (s.R (dec_r2 ci))) ∧
    (dec_op ci = OP_ADD →
      -2147483648 ≤ s.R (dec_r1 ci) + s.R (dec_r2 ci) ∧
        s.R (dec_r1 ci) + s.R (dec_r2 ci) < 2147483648 →
      ∃ s', step instr strings s = some (.next s') ∧
        Writes s s' (dec_r1 ci) (s.R (dec_r1 ci) + s.R (dec_r2 ci))) ∧
    (dec_op ci = OP_MOD → s.R (dec_r2 ci) ≠ 0 →
      ¬ (s.R (dec_r1 ci) = INT_MIN ∧ s.R (dec_r2 ci) = -1) →
      ∃ s' v, step instr strings s = some (.next s') ∧ Writes s s' (dec_r1 ci) v ∧
        v = Int.tmod (s.R (dec_r1 ci)) (s.R (dec_r2 ci)) ∧
        (∃ q, s.R (dec_r1 ci) = s.R (dec_r2 ci) * q + v) ∧
        v.natAbs < (s.R (dec_r2 ci)).natAbs ∧
        (0 ≤ s.R (dec_r1 ci) → 0 ≤ v) ∧ (s.R (dec_r1 ci) ≤ 0 → v ≤ 0)) := by
  have h1 : s.reg[dec_r1 ci]? = some (s.R (dec_r1 ci)) :=
    reg_get s _ (by have := dec_r1_lt ci; omega)
  have h2 : s.reg[dec_r2 ci]? = some (s.R (dec_r2 ci)) :=
    reg_get s _ (by have := dec_r2_lt ci; omega)
  have hlt : dec_r1 ci < s.reg.length := by have := dec_r1_lt ci; omega
  rw [reg_step_fetch instr strings s ci hfetch]
  refine ⟨fun hop => ?_, fun hop => ?_, fun hop => ?_, fun hop hrange => ?_,
    fun hop hnz hov => ?_⟩
  · simp only [exec, hop, OP_NOP]
  · obtain ⟨s', hs, hw⟩ := setReg_writes s (dec_r1 ci) (dec_imm ci) hlt
    exact ⟨s', by simp only [exec, hop, OP_LOAD, hs], hw⟩
  · obtain ⟨s', hs, hw⟩ := setReg_writes s (dec_r1 ci) (s.R (dec_r2 ci)) hlt
    exact ⟨s', by simp only [exec, hop, OP_MOVE, h2, hs], hw⟩
  · obtain ⟨s', hs, hw⟩ :=
      setReg_writes s (dec_r1 ci) (wrapInt (s.R (dec_r1 ci) + s.R (dec_r2 ci))) hlt
    rw [wrapInt_eq _ hrange] at hs hw
    refine ⟨s', ?_, hw⟩
    simp only [exec, hop, OP_ADD, h1, h2, wrapInt_eq _ hrange, hs]
  · obtain ⟨s', hs, hw⟩ :=
      setReg_writes s (dec_r1 ci) (Int.tmod (s.R (dec_r1 ci)) (s.R (dec_r2 ci))) hlt
    obtain ⟨hq, habs, hpos, hneg⟩ := tmod_spec (s.R (dec_r1 ci)) (s.R (dec_r2 ci)) hnz
    refine ⟨s', _, ?_, hw, rfl, hq, habs, hpos, hneg⟩
    simp only [exec, hop, OP_MOD, h1, h2, hnz, if_false, hov, hs]

/-- C15 in the canonical program: at index 8, `MOD(6, 5)` with `r6 = 1`, `r5 = 15`
leaves the remainder `1` in `r6`. -/
theorem reg_data_step_witness :
    ∃ s' v, step fizzbuzz strings ⟨8, [1, 1, 3, 5, 15, 1, 0, 0], []⟩ = some (.next s') ∧
      Writes ⟨8, [1, 1, 3, 5, 15, 1, 0, 0], []⟩ s' (dec_r1 (MOD 6 5)) v ∧
      v = Int.tmod (State.R ⟨8, [1, 1, 3, 5, 15, 1, 0, 0], []⟩ (dec_r1 (MOD 6 5)))
            (State.R ⟨8, [1, 1, 3, 5, 15, 1, 0, 0], []⟩ (dec_r2 (MOD 6 5))) ∧
      (∃ q, State.R ⟨8, [1, 1, 3, 5, 15, 1, 0, 0], []⟩ (dec_r1 (MOD 6 5))
          = State.R ⟨8, [1, 1, 3, 5, 15, 1, 0, 0], []⟩ (dec_r2 (MOD 6 5)) * q + v) ∧
      v.natAbs < (State.R ⟨8, [1, 1, 3, 5, 15, 1, 0, 0], []⟩ (dec_r2 (MOD 6 5))).natAbs ∧
      (0 ≤ State.R ⟨8, [1, 1, 3, 5, 15, 1, 0, 0], []⟩ (dec_r1 (MOD 6 5)) → 0 ≤ v) ∧
      (State.R ⟨8, [1, 1, 3, 5, 15, 1, 0, 0], []⟩ (dec_r1 (MOD 6 5)) ≤ 0 → v ≤ 0) :=
  (reg_data_step fizzbuzz strings ⟨8, [1, 1, 3, 5, 15, 1, 0, 0], []⟩ (MOD 6 5)
    (by decide) (by decide)).2.2.2.2 (by decide) (by decide) (by decide)

end FizzBuzzReg

namespace FizzBuzzReg

open FizzBuzz

/-- An assignment to a register inside the array is a successor state. -/
theorem setReg_ne_fault (s : State) (r : Nat) (v : Int) (hr : r < s.reg.length) (f : Fault) :
    setReg s r v ≠ .fault f := by
  simp only [setReg, hr, if_true]
  exact fun h => Step.noConfusion h

/-- C17: register machine, for every instruction word the decoded opcode `w & 7` is
one of the eight defined opcodes `0..7` and the register fields `r1`, `r2` (also
`PRINTNUM`'s register) lie in `[0, 7]`; so, with the 8-register array, no step takes
the unknown-opcode branch and no step indexes `reg` outside its bounds (`PRINTCHAR`
indexes it only under its guard `arg < 8`). -/
theorem reg_decode_in_bounds (strings : List String) (ci : Nat) (s : State)
    (hreg : s.reg.length = 8) :
    dec_op ci ≤ 7 ∧ dec_r1 ci ≤ 7 ∧ dec_r2 ci ≤ 7 ∧
    exec strings ci s ≠ .fault .unknownOpcode ∧ exec strings ci s ≠ .fault .outOfBounds := by
  have hop := reg_dec_op_lt ci
  have hr1 := dec_r1_lt ci
  have hr2 := dec_r2_lt ci
  have h1 : s.reg[dec_r1 ci]? = some (s.R (dec_r1 ci)) := reg_get s _ (by omega)
  have h2 : s.reg[dec_r2 ci]? = some (s.R (dec_r2 ci)) := reg_get s _ (by omega)
  have hlt : dec_r1 ci < s.reg.length := by omega
  have hset : ∀ (v : Int) (f : Fault), setReg s (dec_r1 ci) v ≠ .fault f :=
    fun v f => setReg_ne_fault s _ v hlt f
  refine ⟨by omega, by omega, by omega, ?_⟩
  have hcases : dec_op ci = 0 ∨ dec_op ci = 1 ∨ dec_op ci = 2 ∨ dec_op ci = 3 ∨ dec_op ci = 4
      ∨ dec_op ci = 5 ∨ dec_op ci = 6 ∨ dec_op ci = 7 := by omega
  rcases hcases with ho | ho | ho | ho | ho | ho | ho | ho <;> simp only [exec, ho, h1, h2]
  · exact ⟨fun h => Step.noConfusion h, fun h => Step.noConfusion h⟩
  · exact ⟨hset _ _, hset _ _⟩
  · exact ⟨hset _ _, hset _ _⟩
  · exact ⟨hset _ _, hset _ _⟩
  · by_cases hz : s.R (dec_r2 ci) = 0
    · simp only [hz, if_true]
      exact ⟨fun h => (by cases h), fun h => (by cases h)⟩
    · simp only [hz, if_false]
      by_cases hov : s.R (dec_r1 ci) = INT_MIN ∧ s.R (dec_r2 ci) = -1
      · simp only [hov, and_self, if_true]
        exact ⟨fun h => (by cases h), fun h => (by cases h)⟩
      · simp only [hov, if_false]
        exact ⟨hset _ _, hset _ _⟩
  · by_cases hz : s.R (dec_r1 ci) = 0
    · simp only [hz, if_true]
      exact ⟨fun h => Step.noConfusion h, fun h => Step.noConfusion h⟩
    · simp only [hz, if_false]
      exact ⟨fun h => Step.noConfusion h, fun h => Step.noConfusion h⟩
  · by_cases harg : dec_arg ci < 8
    · have h3 : s.reg[dec_arg ci]? = some (s.R (dec_arg ci)) := reg_get s _ (by omega)
      simp only [harg, if_true, h3]
      exact ⟨fun h => Step.noConfusion h, fun h => Step.noConfusion h⟩
    · simp only [harg, if_false]
      cases strings[dec_arg ci - 8]? with
      | none => exact ⟨fun h => (by cases h), fun h => (by cases h)⟩
      | some str => exact ⟨fun h => Step.noConfusion h, fun h => Step.noConfusion h⟩
  · exact ⟨fun h => Step.noConfusion h, fun h => Step.noConfusion h⟩

/-- C17 at the word `0xffff` (`PRINTNUM` of register 7) from zeroed registers. -/
theorem reg_decode_in_bounds_witness :
    dec_op 65535 ≤ 7 ∧ dec_r1 65535 ≤ 7 ∧ dec_r2 65535 ≤ 7 ∧
    exec strings 65535 initState ≠ .fault .unknownOpcode ∧
    exec strings 65535 initState ≠ .fault .outOfBounds :=
  reg_decode_in_bounds strings 65535 initState (by decide)

end FizzBuzzReg

/-! ## Stack machine: what a successful step does to `pc`, `top` and the array -/

namespace FizzBuzzVM

open FizzBuzz

/-- The claims about a step of the stack machine that ended in a successor state `s'`:
the array keeps its length, `top` changes by `depthDelta`, stays inside `[0, length]`
when it was, and `pc` is `pc + 1` or the target of a taken jump. -/
theorem stack_exec_next (strings : List String) (w : Nat) (s s' : State)
    (h : exec strings w s = .next s') :
    s'.stack.length = s.stack.length ∧ s'.top = s.top + depthDelta w ∧
    (s.top ≤ max_stack s → s'.top ≤ max_stack s) ∧
    (0 ≤ s.top → 0 ≤ s'.top) ∧
    (s'.pc = s.pc + 1 ∨
      (dec_op w = OP_CJMP ∧ dec_arg w ≠ 0 ∧ s'.pc = sizeAdd s.pc (dec_arg w))) := by
  rcases Nat.lt_or_ge (dec_op w) 8 with hlt | hge
  swap
  · rw [exec_unknown strings w s hge] at h
    cases h
  have hcases : dec_op w = 0 ∨ dec_op w = 1 ∨ dec_op w = 2 ∨ dec_op w = 3 ∨ dec_op w = 4
      ∨ dec_op w = 5 ∨ dec_op w = 6 ∨ dec_op w = 7 := by omega
  rcases hcases with ho | ho | ho | ho | ho | ho | ho | ho <;> simp only [exec, ho] at h
  · -- PUSH
    by_cases hc : s.top < max_stack s
    · simp only [hc, if_true] at h
      cases hwr : wr s.stack s.top (dec_arg w) with
      | none => rw [hwr] at h; cases h
      | some st =>
        rw [hwr] at h
        cases h
        have hd : depthDelta w = 1 := by simp [depthDelta, ho, OP_PUSH]
        refine ⟨wr_length _ _ _ _ hwr, by rw [hd], fun _ => ?_, fun _ => ?_, Or.inl rfl⟩
        · show s.top + 1 ≤ max_stack s
          omega
        · show 0 ≤ s.top + 1
          omega
    · simp only [hc, if_false] at h
      cases h
  · -- DUP
    by_cases hc : 0 < s.top ∧ s.top < max_stack s
    · simp only [hc, and_self, if_true] at h
      cases hv : rd s.stack (s.top - 1) with
      | none => rw [hv] at h; cases h
      | some v =>
        rw [hv] at h
        simp only at h
        cases hwr : wr s.stack s.top v with
        | none => rw [hwr] at h; cases h
        | some st =>
          rw [hwr] at h
          cases h
          have hd : depthDelta w = 1 := by simp [depthDelta, ho, OP_PUSH, OP_DUP]
          refine ⟨wr_length _ _ _ _ hwr, by rw [hd], fun _ => ?_, fun _ => ?_, Or.inl rfl⟩
          · show s.top + 1 ≤ max_stack s
            omega
          · show 0 ≤ s.top + 1
            omega
    · simp only [hc, if_false] at h
      cases h
  · -- ADD
    by_cases harg : dec_arg w = 0
    · simp only [harg, if_true] at h
      by_cases hc : 1 < s.top
      · simp only [hc, if_true] at h
        cases hv2 : rd s.stack (s.top - 2) with
        | none => rw [hv2] at h; cases h
        | some x =>
          cases hv1 : rd s.stack (s.top - 1) with
          | none => rw [hv2, hv1] at h; cases h
          | some y =>
            rw [hv2, hv1] at h
            simp only at h
            cases hwr : wr s.stack (s.top - 2) (wrapInt (x + y)) with
            | none => rw [hwr] at h; cases h
            | some st =>
              rw [hwr] at h
              cases h
              have hd : depthDelta w = -1 := by
                simp [depthDelta, ho, harg, OP_PUSH, OP_DUP, OP_ADD, OP_CJMP, OP_PRINTCHAR, OP_STOP]
              have hb : s.top - 2 < max_stack s := by
                unfold wr at hwr
                split at hwr
                · rename_i hi
                  unfold max_stack
                  omega
                · cases hwr
              refine ⟨wr_length _ _ _ _ hwr, by rw [hd]; rfl, fun _ => ?_, fun _ => ?_, Or.inl rfl⟩
              · show s.top - 1 ≤ max_stack s
                omega
              · show 0 ≤ s.top - 1
                omega
      · simp only [hc, if_false] at h
        cases h
    · simp only [harg, if_false] at h
      by_cases hc : 0 < s.top
      · simp only [hc, if_true] at h
        cases hv1 : rd s.stack (s.top - 1) with
        | none => rw [hv1] at h; cases h
        | some y =>
          rw [hv1] at h
          simp only at h
          cases hwr : wr s.stack (s.top - 1) (wrapInt (y + dec_arg w)) with
          | none => rw [hwr] at h; cases h
          | some st =>
            rw [hwr] at h
            cases h
            have hd : depthDelta w = 0 := by
              simp [depthDelta, ho, harg, OP_PUSH, OP_DUP, OP_ADD]
            have hb : s.top - 1 < max_stack s := by
              unfold wr at hwr
              split at hwr
              · rename_i hi
                unfold max_stack
                omega
              · cases hwr
            exact ⟨wr_length _ _ _ _ hwr, by rw [hd]; simp, fun h0 => h0, fun h0 => h0, Or.inl rfl⟩
      · simp only [hc, if_false] at h
        cases h
  · -- REMAINDER
    by_cases hc : 1 < s.top
    · simp only [hc, if_true] at h
      cases hv2 : rd s.stack (s.top - 2) with
      | none => rw [hv2] at h; cases h
      | some x =>
        cases hv1 : rd s.stack (s.top - 1) with
        | none => rw [hv2, hv1] at h; cases h
        | some y =>
          rw [hv2, hv1] at h
          simp only at h
          by_cases hy : y = 0
          · simp only [hy, if_true] at h
            cases h
          · simp only [hy, if_false] at h
            by_cases hov : x = INT_MIN ∧ y = -1
            · simp only [hov, and_self, if_true] at h
              cases h
            simp only [hov, if_false] at h
            cases hwr : wr s.stack (s.top - 2) (Int.tmod x y) with
            | none => rw [hwr] at h; cases h
            | some st =>
              rw [hwr] at h
              cases h
              have hd : depthDelta w = -1 := by
                simp [depthDelta, ho, OP_PUSH, OP_DUP, OP_ADD, OP_CJMP, OP_PRINTCHAR, OP_STOP]
              have hb : s.top - 2 < max_stack s := by
                unfold wr at hwr
                split at hwr
                · rename_i hi
                  unfold max_stack
                  omega
                · cases hwr
              refine ⟨wr_length _ _ _ _ hwr, by rw [hd]; rfl, fun _ => ?_, fun _ => ?_, Or.inl rfl⟩
              · show s.top - 1 ≤ max_stack s
                omega
              · show 0 ≤ s.top - 1
                omega
    · simp only [hc, if_false] at h
      cases h
  · -- CJMP
    by_cases harg : dec_arg w = 0
    · simp only [harg, ne_eq, not_true_eq_false, if_false] at h
      cases h
      have hd : depthDelta w = 0 := by
        simp [depthDelta, ho, harg, OP_PUSH, OP_DUP, OP_ADD, OP_CJMP]
      exact ⟨rfl, by rw [hd]; simp, fun h0 => h0, fun h0 => h0, Or.inl rfl⟩
    · simp only [harg, ne_eq, not_false_eq_true, if_true] at h
      have hd : depthDelta w = -1 := by
        simp [depthDelta, ho, harg, OP_PUSH, OP_DUP, OP_ADD, OP_CJMP, OP_PRINTCHAR, OP_STOP]
      by_cases hc : 0 < s.top
      · simp only [hc, if_true] at h
        cases hv1 : rd s.stack (s.top - 1) with
        | none => rw [hv1] at h; cases h
        | some y =>
          rw [hv1] at h
          simp only at h
          by_cases hy : y = 0
          · simp only [hy, if_true] at h
            cases h
            refine ⟨rfl, by rw [hd]; rfl, fun _ => ?_, fun _ => ?_, Or.inr ⟨ho, harg, rfl⟩⟩
            · show s.top - 1 ≤ max_stack s
              omega
            · show 0 ≤ s.top - 1
              omega
          · simp only [hy, if_false] at h
            cases h
            refine ⟨rfl, by rw [hd]; rfl, fun _ => ?_, fun _ => ?_, Or.inl rfl⟩
            · show s.top - 1 ≤ max_stack s
              omega
            · show 0 ≤ s.top - 1
              omega
      · simp only [hc, if_false] at h
        cases h
  · -- PRINTCHAR
    by_cases harg : dec_arg w = 0
    · simp only [harg, if_true] at h
      have hd : depthDelta w = -1 := by
        simp [depthDelta, ho, harg, OP_PUSH, OP_DUP, OP_ADD, OP_CJMP, OP_PRINTCHAR, OP_STOP]
      by_cases hc : 0 < s.top
      · simp only [hc, if_true] at h
        cases hv1 : rd s.stack (s.top - 1) with
        | none => rw [hv1] at h; cases h
        | some y =>
          rw [hv1] at h
          cases h
          refine ⟨rfl, by rw [hd]; rfl, fun _ => ?_, fun _ => ?_, Or.inl rfl⟩
          · show s.top - 1 ≤ max_stack s
            omega
          · show 0 ≤ s.top - 1
            omega
      · simp only [hc, if_false] at h
        cases h
    · simp only [harg, if_false] at h
      have hd : depthDelta w = 0 := by
        simp [depthDelta, ho, harg, OP_PUSH, OP_DUP, OP_ADD, OP_CJMP, OP_PRINTCHAR]
      by_cases hc : 0 < dec_arg w ∧ dec_arg w ≤ (strings.length : Int)
      · simp only [hc, and_self, if_true] at h
        cases hstr : strings[(dec_arg w - 1).toNat]? with
        | none => rw [hstr] at h; cases h
        | some str =>
          rw [hstr] at h
          cases h
          exact ⟨rfl, by rw [hd]; simp, fun h0 => h0, fun h0 => h0, Or.inl rfl⟩
      · simp only [hc, if_false] at h
        cases h
  · -- PRINTNUM
    have hd : depthDelta w = -1 := by
      simp [depthDelta, ho, OP_PUSH, OP_DUP, OP_ADD, OP_CJMP, OP_PRINTCHAR, OP_STOP]
    by_cases hc : 0 < s.top
    · simp only [hc, if_true] at h
      cases hv1 : rd s.stack (s.top - 1) with
      | none => rw [hv1] at h; cases h
      | some y =>
        rw [hv1] at h
        cases h
        refine ⟨rfl, by rw [hd]; rfl, fun _ => ?_, fun _ => ?_, Or.inl rfl⟩
        · show s.top - 1 ≤ max_stack s
          omega
        · show 0 ≤ s.top - 1
          omega
    · simp only [hc, if_false] at h
      cases h
  · -- STOP
    cases h

end FizzBuzzVM

/-! ## Stack machine: which steps abort -/

namespace FizzBuzzVM

open FizzBuzz

/-- A read inside the array gives a value. -/
theorem rd_in (a : List Int) (i : Int) (h0 : 0 ≤ i) (h1 : i < (a.length : Int)) :
    ∃ v, rd a i = some v := by
  have hlt : i.toNat < a.length := by omega
  exact ⟨a[i.toNat], by simp only [rd, h0, if_true, List.getElem?_eq_getElem hlt]⟩

/-- A write inside the array gives an array. -/
theorem wr_in (a : List Int) (i v : Int) (h0 : 0 ≤ i) (h1 : i < (a.length : Int)) :
    ∃ st, wr a i v = some st := by
  have hlt : i.toNat < a.length := by omega
  exact ⟨a.set i.toNat v, by simp only [wr, h0, hlt, and_self, if_true]⟩

/-- The underflow and bad-operand conditions make the step fail an assertion or take
the unknown-opcode branch. -/
theorem exec_underflow (strings : List String) (w : Nat) (s : State)
    (h : Underflow strings w s) :
    exec strings w s = .fault .assertion ∨ exec strings w s = .fault .unknownOpcode := by
  rcases h with ⟨hop, ht⟩ | ⟨hop, ht⟩ | ⟨h8, _⟩ | ⟨hop, hi⟩
  · left
    have hc : ¬ (1 < s.top) := by omega
    rcases hop with ⟨ho, ha⟩ | ho
    · simp only [exec, ho, OP_ADD, ha, if_true, hc, if_false]
    · simp only [exec, ho, OP_REMAINDER, hc, if_false]
  · left
    have hc : ¬ (0 < s.top) := by omega
    rcases hop with ⟨ho, ha⟩ | ⟨ho, ha⟩ | ⟨ho, ha⟩ | ho
    · simp only [exec, ho, OP_ADD, ha, if_false, hc]
    · simp only [exec, ho, OP_CJMP, ha, ne_eq, not_false_eq_true, if_true, hc, if_false]
    · simp only [exec, ho, OP_PRINTCHAR, ha, if_true, hc, if_false]
    · simp only [exec, ho, OP_PRINTNUM, hc, if_false]
  · right
    exact exec_unknown strings w s h8
  · left
    have ha : ¬ (dec_arg w = 0) := by
      rcases hi with hi | hi
      · omega
      · have : (0 : Int) ≤ strings.length := Int.ofNat_nonneg _
        omega
    have hc : ¬ (0 < dec_arg w ∧ dec_arg w ≤ (strings.length : Int)) := by omega
    simp only [exec, hop, OP_PRINTCHAR, ha, if_false, hc]

/-- With `top` inside `[0, capacity]`, a step to which none of the underflow,
bad-operand, overflow, remainder-by-zero and remainder-overflow conditions applies does
not abort. -/
theorem exec_succeeds (strings : List String) (w : Nat) (s : State)
    (h0 : 0 ≤ s.top) (h1 : s.top ≤ max_stack s)
    (hu : ¬ Underflow strings w s) (ho : ¬ Overflow w s) (hr : ¬ RemByZero w s)
    (hro : ¬ RemOverflow w s) :
    (∃ s', exec strings w s = .next s') ∨ exec strings w s = .stop s := by
  have hm : max_stack s = (s.stack.length : Int) := rfl
  have hlt : dec_op w < 8 := by
    by_contra hge
    exact hu (Or.inr (Or.inr (Or.inl ⟨by omega, by have := stack_dec_op_lt w; omega⟩)))
  have hcases : dec_op w = 0 ∨ dec_op w = 1 ∨ dec_op w = 2 ∨ dec_op w = 3 ∨ dec_op w = 4
      ∨ dec_op w = 5 ∨ dec_op w = 6 ∨ dec_op w = 7 := by omega
  rcases hcases with hop | hop | hop | hop | hop | hop | hop | hop
  · -- PUSH
    have hc : s.top < max_stack s := by
      have : ¬ (s.top = max_stack s) := fun e => ho (Or.inl ⟨Or.inl hop, e⟩)
      omega
    obtain ⟨st, hst⟩ := wr_in s.stack s.top (dec_arg w) h0 (by omega)
    exact Or.inl ⟨_, by simp only [exec, hop, hc, if_true, hst]; rfl⟩
  · -- DUP
    have hc : 0 < s.top ∧ s.top < max_stack s := by
      have ht : ¬ (s.top = max_stack s) := fun e => ho (Or.inl ⟨Or.inr hop, e⟩)
      have hz : ¬ (s.top = 0) := fun e => ho (Or.inr ⟨hop, e⟩)
      omega
    obtain ⟨v, hv⟩ := rd_in s.stack (s.top - 1) (by omega) (by omega)
    obtain ⟨st, hst⟩ := wr_in s.stack s.top v h0 (by omega)
    exact Or.inl ⟨_, by simp only [exec, hop, hc, and_self, if_true, hv, hst]; rfl⟩
  · -- ADD
    by_cases ha : dec_arg w = 0
    · have hc : 1 < s.top := by
        have : ¬ (s.top < 2) := fun e => hu (Or.inl ⟨Or.inl ⟨hop, ha⟩, e⟩)
        omega
      obtain ⟨x, hx⟩ := rd_in s.stack (s.top - 2) (by omega) (by omega)
      obtain ⟨y, hy⟩ := rd_in s.stack (s.top - 1) (by omega) (by omega)
      obtain ⟨st, hst⟩ := wr_in s.stack (s.top - 2) (wrapInt (x + y)) (by omega) (by omega)
      exact Or.inl ⟨_, by simp only [exec, hop, ha, if_true, hc, hx, hy, hst]; rfl⟩
    · have hc : 0 < s.top := by
        have : ¬ (s.top = 0) := fun e => hu (Or.inr (Or.inl ⟨Or.inl ⟨hop, ha⟩, e⟩))
        omega
      obtain ⟨y, hy⟩ := rd_in s.stack (s.top - 1) (by omega) (by omega)
      obtain ⟨st, hst⟩ :=
        wr_in s.stack (s.top - 1) (wrapInt (y + dec_arg w)) (by omega) (by omega)
      exact Or.inl ⟨_, by simp only [exec, hop, ha, if_false, hc, if_true, hy, hst]; rfl⟩
  · -- REMAINDER
    have hc : 1 < s.top := by
      have : ¬ (s.top < 2) := fun e => hu (Or.inl ⟨Or.inr hop, e⟩)
      omega
    obtain ⟨x, hx⟩ := rd_in s.stack (s.top - 2) (by omega) (by omega)
    obtain ⟨y, hy⟩ := rd_in s.stack (s.top - 1) (by omega) (by omega)
    have hnz : ¬ (y = 0) := fun e => hr ⟨hop, by rw [hy, e]⟩
    have hov : ¬ (x = INT_MIN ∧ y = -1) := fun e => hro ⟨hop, by rw [hx, e.1], by rw [hy, e.2]⟩
    obtain ⟨st, hst⟩ := wr_in s.stack (s.top - 2) (Int.tmod x y) (by omega) (by omega)
    exact Or.inl ⟨_, by simp only [exec, hop, hc, if_true, hx, hy, hnz, if_false, hov, hst]; rfl⟩
  · -- CJMP
    by_cases ha : dec_arg w = 0
    · exact Or.inl ⟨_, by simp only [exec, hop, ha, ne_eq, not_true_eq_false, if_false]; rfl⟩
    · have hc : 0 < s.top := by
        have : ¬ (s.top = 0) := fun e => hu (Or.inr (Or.inl ⟨Or.inr (Or.inl ⟨hop, ha⟩), e⟩))
        omega
      obtain ⟨y, hy⟩ := rd_in s.stack (s.top - 1) (by omega) (by omega)
      by_cases hz : y = 0
      · exact Or.inl ⟨_, by
          simp only [exec, hop, ha, ne_eq, not_false_eq_true, if_true, hc, hy, hz]; rfl⟩
      · exact Or.inl ⟨_, by
          simp only [exec, hop, ha, ne_eq, not_false_eq_true, if_true, hc, hy, hz, if_false]; rfl⟩
  · -- PRINTCHAR
    by_cases ha : dec_arg w = 0
    · have hc : 0 < s.top := by
        have : ¬ (s.top = 0) :=
          fun e => hu (Or.inr (Or.inl ⟨Or.inr (Or.inr (Or.inl ⟨hop, ha⟩)), e⟩))
        omega
      obtain ⟨y, hy⟩ := rd_in s.stack (s.top - 1) (by omega) (by omega)
      exact Or.inl ⟨_, by simp only [exec, hop, ha, if_true, hc, hy]; rfl⟩
    · have hc : 0 < dec_arg w ∧ dec_arg w ≤ (strings.length : Int) := by
        have : ¬ (dec_arg w < 0 ∨ (strings.length : Int) < dec_arg w) :=
          fun e => hu (Or.inr (Or.inr (Or.inr ⟨hop, e⟩)))
        omega
      have hlt' : (dec_arg w - 1).toNat < strings.length := by omega
      exact Or.inl ⟨_, by
        simp only [exec, hop, ha, if_false, hc, and_self, if_true,
          List.getElem?_eq_getElem hlt']; rfl⟩
  · -- PRINTNUM
    have hc : 0 < s.top := by
      have : ¬ (s.top = 0) :=
        fun e => hu (Or.inr (Or.inl ⟨Or.inr (Or.inr (Or.inr hop)), e⟩))
      omega
    obtain ⟨y, hy⟩ := rd_in s.stack (s.top - 1) (by omega) (by omega)
    exact Or.inl ⟨_, by simp only [exec, hop, hc, if_true, hy]; rfl⟩
  · -- STOP
    exact Or.inr (by simp only [exec, hop])

end FizzBuzzVM

namespace FizzBuzzVM

open FizzBuzz

/-- The overflow and empty-`DUP` conditions make the step fail its assertion. -/
theorem exec_overflow (strings : List String) (w : Nat) (s : State) (h : Overflow w s) :
    exec strings w s = .fault .assertion := by
  rcases h with ⟨hop | hop, ht⟩ | ⟨hop, ht⟩
  · have hc : ¬ (s.top < max_stack s) := by omega
    simp only [exec, hop, OP_PUSH, hc, if_false]
  · have hc : ¬ (0 < s.top ∧ s.top < max_stack s) := by omega
    simp only [exec, hop, OP_DUP, hc, if_false]
  · have hc : ¬ (0 < s.top ∧ s.top < max_stack s) := by omega
    simp only [exec, hop, OP_DUP, hc, if_false]

/-- A remainder by zero that is not an underflow is the fault of the native `%`. -/
theorem exec_rem_by_zero (strings : List String) (w : Nat) (s : State)
    (h1 : s.top ≤ max_stack s) (hu : ¬ Underflow strings w s) (hr : RemByZero w s) :
    exec strings w s = .fault .divByZero := by
  obtain ⟨hop, hz⟩ := hr
  have hm : max_stack s = (s.stack.length : Int) := rfl
  have hc : 1 < s.top := by
    have : ¬ (s.top < 2) := fun e => hu (Or.inl ⟨Or.inr hop, e⟩)
    omega
  obtain ⟨x, hx⟩ := rd_in s.stack (s.top - 2) (by omega) (by omega)
  simp only [exec, hop, OP_REMAINDER, hc, if_true, hx, hz]

/-- A remainder of `INT_MIN` by `-1` that is not an underflow is the fault of the native
`%`. -/
theorem exec_rem_overflow (strings : List String) (w : Nat) (s : State)
    (hro : RemOverflow w s) (hu : ¬ Underflow strings w s) :
    exec strings w s = .fault .remOverflow := by
  obtain ⟨hop, hx, hy⟩ := hro
  have hc : 1 < s.top := by
    have : ¬ (s.top < 2) := fun e => hu (Or.inl ⟨Or.inr hop, e⟩)
    omega
  have hnz : ¬ ((-1 : Int) = 0) := by decide
  simp only [exec, hop, OP_REMAINDER, hc, if_true, hx, hy, hnz, if_false, and_self]

/-- With `top` inside `[0, capacity]` no step indexes the array outside its bounds. -/
theorem exec_in_bounds (strings : List String) (w : Nat) (s : State)
    (h0 : 0 ≤ s.top) (h1 : s.top ≤ max_stack s) :
    exec strings w s ≠ .fault .outOfBounds := by
  intro hf
  by_cases hu : Underflow strings w s
  · rcases exec_underflow strings w s hu with h | h <;> rw [h] at hf <;> cases hf
  by_cases ho : Overflow w s
  · rw [exec_overflow strings w s ho] at hf
    cases hf
  by_cases hr : RemByZero w s
  · rw [exec_rem_by_zero strings w s h1 hu hr] at hf
    cases hf
  by_cases hro : RemOverflow w s
  · rw [exec_rem_overflow strings w s hro hu] at hf
    cases hf
  rcases exec_succeeds strings w s h0 h1 hu ho hr hro with ⟨s', h⟩ | h <;>
    rw [h] at hf <;> cases hf

/-- C12 fails as stated: `REMAINDER` with `INT_MIN` below `-1` on the stack is none of
the underflow, bad-operand, overflow and remainder-by-zero conditions, yet the step does
not succeed: `INT_MIN % -1` is the fault of the native `%`. The state is reached from the
empty stack by `PUSH -2048`, twenty times `DUP; ADD 0` (doubling to `-2^31` without
overflow) and `PUSH -1`. -/
theorem stack_rem_overflow_counterexample :
    (0 : Int) ≤ State.top ⟨0, [-2147483648, -1] ++ List.replicate 14 0, 2, []⟩ ∧
    State.top ⟨0, [-2147483648, -1] ++ List.replicate 14 0, 2, []⟩
      ≤ max_stack ⟨0, [-2147483648, -1] ++ List.replicate 14 0, 2, []⟩ ∧
    dec_op (word OP_REMAINDER) = OP_REMAINDER ∧
    ¬ Underflow strings (word OP_REMAINDER)
        ⟨0, [-2147483648, -1] ++ List.replicate 14 0, 2, []⟩ ∧
    ¬ Overflow (word OP_REMAINDER) ⟨0, [-2147483648, -1] ++ List.replicate 14 0, 2, []⟩ ∧
    ¬ RemByZero (word OP_REMAINDER) ⟨0, [-2147483648, -1] ++ List.replicate 14 0, 2, []⟩ ∧
    step [word OP_REMAINDER] strings ⟨0, [-2147483648, -1] ++ List.replicate 14 0, 2, []⟩
      = some (.fault .remOverflow) ∧
    runvm 50 (List.replicate 16 0)
      ([word (PUSHIMM (-2048))] ++ (List.replicate 20 [word OP_DUP, word (ADD 0)]).flatten
        ++ [word (PUSHIMM (-1)), word OP_REMAINDER]) strings = .aborted .remOverflow := by
  refine ⟨by decide, by decide, by decide, ?_, ?_, ?_, by decide, by decide!⟩
  · unfold Underflow
    decide
  · unfold Overflow
    decide
  · unfold RemByZero
    decide

/-- C12, amended: stack machine, the underflow and bad-operand conditions (`ADD 0` or
`REMAINDER` with `top < 2`; `ADD imm`, `CJMP rel != 0`, `PRINTCHAR 0` or `PRINTNUM` with
`top == 0`; low four bits in `8..15`; `PRINTCHAR imm` with `imm < 0` or
`imm > num_strings`) are all fatal: the step fails an assertion or takes the `abort()`
branch and the run aborts. Conversely, in a state with `top` inside `[0, capacity]`, when
none of these conditions nor overflow nor remainder by zero nor the remainder
`INT_MIN % -1` holds, the step does not abort (it continues, or it is `STOP`). -/
theorem stack_underflow_fatal (instr : List Nat) (strings : List String) (s : State) (w : Nat)
    (hfetch : instr[s.pc]? = some w) :
    (Underflow strings w s →
      (step instr strings s = some (.fault .assertion) ∨
        step instr strings s = some (.fault .unknownOpcode)) ∧
      ∀ fuel, run instr strings (fuel + 1) s = .aborted .assertion ∨
        run instr strings (fuel + 1) s = .aborted .unknownOpcode) ∧
    (0 ≤ s.top → s.top ≤ max_stack s →
      ¬ Underflow strings w s → ¬ Overflow w s → ¬ RemByZero w s → ¬ RemOverflow w s →
      (∃ s', step instr strings s = some (.next s')) ∨
        step instr strings s = some (.stop s)) := by
  rw [stack_step_fetch instr strings s w hfetch]
  constructor
  · intro hu
    rcases exec_underflow strings w s hu with h | h
    · exact ⟨Or.inl (by rw [h]), fun fuel => Or.inl (by
        simp only [run, stack_step_fetch instr strings s w hfetch, h])⟩
    · exact ⟨Or.inr (by rw [h]), fun fuel => Or.inr (by
        simp only [run, stack_step_fetch instr strings s w hfetch, h])⟩
  · intro h0 h1 hu ho hr hro
    rcases exec_succeeds strings w s h0 h1 hu ho hr hro with ⟨s', h⟩ | h
    · exact Or.inl ⟨s', by rw [h]⟩
    · exact Or.inr (by rw [h])

/-- C12 at `PRINTNUM` on the empty stack (fatal) and at `PUSH 5` on the empty stack
(succeeds). -/
theorem stack_underflow_fatal_witness :
    ((step [word OP_PRINTNUM] strings (initState (List.replicate 16 0))
          = some (.fault .assertion) ∨
        step [word OP_PRINTNUM] strings (initState (List.replicate 16 0))
          = some (.fault .unknownOpcode)) ∧
      ∀ fuel, run [word OP_PRINTNUM] strings (fuel + 1) (initState (List.replicate 16 0))
          = .aborted .assertion ∨
        run [word OP_PRINTNUM] strings (fuel + 1) (initState (List.replicate 16 0))
          = .aborted .unknownOpcode) ∧
    ((∃ s', step [word (PUSHIMM 5)] strings (initState (List.replicate 16 0))
          = some (.next s')) ∨
      step [word (PUSHIMM 5)] strings (initState (List.replicate 16 0))
          = some (.stop (initState (List.replicate 16 0)))) :=
  ⟨(stack_underflow_fatal [word OP_PRINTNUM] strings (initState (List.replicate 16 0))
      (word OP_PRINTNUM) (by decide)).1
      (Or.inr (Or.inl ⟨Or.inr (Or.inr (Or.inr (by decide))), by decide⟩)),
   (stack_underflow_fatal [word (PUSHIMM 5)] strings (initState (List.replicate 16 0))
      (word (PUSHIMM 5)) (by decide)).2 (by decide) (by decide)
      (by
        have h0 : dec_op (word (PUSHIMM 5)) = 0 := by decide
        simp only [Underflow, h0, OP_ADD, OP_REMAINDER, OP_CJMP, OP_PRINTCHAR, OP_PRINTNUM]
        omega)
      (by
        have h0 : dec_op (word (PUSHIMM 5)) = 0 := by decide
        simp only [Overflow, h0, OP_PUSH, OP_DUP, initState, max_stack, List.length_replicate]
        omega)
      (by
        have h0 : dec_op (word (PUSHIMM 5)) = 0 := by decide
        simp only [RemByZero, h0, OP_REMAINDER]
        omega)
      (by
        have h0 : dec_op (word (PUSHIMM 5)) = 0 := by decide
        simp only [RemOverflow, h0, OP_REMAINDER]
        omega)⟩

end FizzBuzzVM

/-! ## Stack machine: termination, result and the depth invariant -/

namespace FizzBuzzVM

open FizzBuzz

/-- C13: stack machine, for every program and every state with `top` not above the
capacity: executing `STOP` ends the run at once, with the stack and the output of
that state; a run also ends when `pc` is not below `num_instr`; and in both cases the
value returned is the cell at index `top - 1` if `top > 0` and `0` if `top == 0`, the
output being what was written so far. -/
theorem stack_stop_and_return (instr : List Nat) (strings : List String) (s : State)
    (h1 : s.top ≤ max_stack s) :
    (∀ w, instr[s.pc]? = some w → dec_op w = OP_STOP →
      step instr strings s = some (.stop s) ∧
      ∀ fuel, run instr strings (fuel + 1) s = ret s) ∧
    (instr.length ≤ s.pc → ∀ fuel, run instr strings (fuel + 1) s = ret s) ∧
    (0 < s.top → ∃ v, rd s.stack (s.top - 1) = some v ∧ ret s = .returned v s.out) ∧
    (s.top = 0 → ret s = .returned 0 s.out) := by
  have hm : max_stack s = (s.stack.length : Int) := rfl
  refine ⟨fun w hfetch hop => ?_, fun hpc fuel => ?_, fun hpos => ?_, fun hz => ?_⟩
  · have hstep : step instr strings s = some (.stop s) := by
      rw [stack_step_fetch instr strings s w hfetch]
      simp only [exec, hop, OP_STOP]
    exact ⟨hstep, fun fuel => by simp only [run, hstep]⟩
  · have hnone : instr[s.pc]? = none := List.getElem?_eq_none hpc
    simp only [run, step, hnone]
  · obtain ⟨v, hv⟩ := rd_in s.stack (s.top - 1) (by omega) (by omega)
    exact ⟨v, hv, by simp only [ret, hpos, if_true, hv]⟩
  · have hn : ¬ (0 < s.top) := by omega
    simp only [ret, hn, if_false]

/-- C13 at a `STOP` with two values on the stack: the run returns the top one. -/
theorem stack_stop_and_return_witness :
    run [word OP_STOP, word (PUSHIMM 1)] strings 1 ⟨0, [3, 4] ++ List.replicate 14 0, 2, ['x']⟩
      = .returned 4 ['x'] :=
  ((stack_stop_and_return [word OP_STOP, word (PUSHIMM 1)] strings
      ⟨0, [3, 4] ++ List.replicate 14 0, 2, ['x']⟩ (by decide)).1
      (word OP_STOP) (by decide) (by decide)).2 0

/-- Only `STOP` leaves the loop by `goto end`, and it leaves the state as it is. -/
theorem exec_stop (strings : List String) (w : Nat) (s s' : State)
    (h : exec strings w s = .stop s') : dec_op w = OP_STOP ∧ s' = s := by
  rcases Nat.lt_or_ge (dec_op w) 8 with hlt | hge
  swap
  · rw [exec_unknown strings w s hge] at h
    cases h
  have hcases : dec_op w = 0 ∨ dec_op w = 1 ∨ dec_op w = 2 ∨ dec_op w = 3 ∨ dec_op w = 4
      ∨ dec_op w = 5 ∨ dec_op w = 6 ∨ dec_op w = 7 := by omega
  rcases hcases with ho | ho | ho | ho | ho | ho | ho | ho <;> simp only [exec, ho] at h
  case inr.inr.inr.inr.inr.inr.inr =>
    cases h
    exact ⟨ho, rfl⟩
  all_goals
    repeat' (first | cases h | split at h)

/-- Steps that do not abort keep `top` inside `[0, capacity]` and the array length. -/
theorem stepsN_inv (instr : List Nat) (strings : List String) (n : Nat) :
    ∀ s s' : State, 0 ≤ s.top → s.top ≤ max_stack s → stepsN instr strings n s = some s' →
      0 ≤ s'.top ∧ s'.top ≤ max_stack s' ∧ s'.stack.length = s.stack.length := by
  induction n with
  | zero =>
    intro s s' h0 h1 h
    simp only [stepsN, Option.some.injEq] at h
    subst h
    exact ⟨h0, h1, rfl⟩
  | succ n ih =>
    intro s s' h0 h1 h
    simp only [stepsN] at h
    cases hs : step instr strings s with
    | none => rw [hs] at h; cases h
    | some r =>
      cases r with
      | next t =>
        rw [hs] at h
        unfold step at hs
        cases hw : instr[s.pc]? with
        | none => rw [hw] at hs; cases hs
        | some w =>
        rw [hw] at hs
        have hex : exec strings w s = .next t := Option.some.inj hs
        obtain ⟨hlen, _, hle, hge, _⟩ := stack_exec_next strings w s t hex
        have hmt : max_stack t = max_stack s := by simp only [max_stack, hlen]
        obtain ⟨a, b, c⟩ := ih t s' (hge h0) (by rw [hmt]; exact hle h1) h
        exact ⟨a, b, c.trans hlen⟩
      | stop t => rw [hs] at h; cases h
      | fault f => rw [hs] at h; cases h

/-- C18: stack machine with its 16-cell array, started with `top == 0`: every state
reached by steps that do not abort has `0 <= top <= 16`; from such a state no step
indexes the array outside `[0, 16)` (such an access is the fault `outOfBounds` of this
model); and a step that does not abort changes the depth by the amount fixed for its
instruction (`PUSH`, `DUP`: `+1`; `ADD imm`, `CJMP 0`, `PRINTCHAR imm`, `STOP`: `0`;
`ADD 0`, `REMAINDER`, `CJMP rel`, `PRINTCHAR 0`, `PRINTNUM`: `-1`). -/
theorem stack_depth_invariant (instr : List Nat) (strings : List String) (cells : List Int)
    (hcells : cells.length = 16) :
    (∀ n s, stepsN instr strings n (initState cells) = some s →
      0 ≤ s.top ∧ s.top ≤ 16 ∧ s.stack.length = 16 ∧
      ∀ w, exec strings w s ≠ .fault .outOfBounds) ∧
    (∀ w s s', exec strings w s = .next s' → s'.top = s.top + depthDelta w) ∧
    (∀ w s s', exec strings w s = .stop s' → s'.top = s.top + depthDelta w) := by
  refine ⟨fun n s h => ?_, fun w s s' h => (stack_exec_next strings w s s' h).2.1,
    fun w s s' h => ?_⟩
  · have hinit0 : (0 : Int) ≤ (initState cells).top := Int.le_refl 0
    have hinit1 : (initState cells).top ≤ max_stack (initState cells) := by
      show (0 : Int) ≤ ((initState cells).stack.length : Int)
      exact Int.ofNat_nonneg _
    obtain ⟨a, b, c⟩ := stepsN_inv instr strings n (initState cells) s hinit0 hinit1 h
    have hlen : s.stack.length = 16 := c.trans hcells
    have hb : s.top ≤ 16 := by
      have : max_stack s = (s.stack.length : Int) := rfl
      omega
    exact ⟨a, hb, hlen, fun w => exec_in_bounds strings w s a b⟩
  · obtain ⟨hop, rfl⟩ := exec_stop strings w s s' h
    have hd : depthDelta w = 0 := by
      simp [depthDelta, hop, OP_PUSH, OP_DUP, OP_ADD, OP_CJMP, OP_PRINTCHAR, OP_STOP]
    rw [hd]
    simp

/-- C18 in the canonical program: after 3 steps (`PUSH 0`, `ADD 1`, `DUP`) `top`
is 2. -/
theorem stack_depth_invariant_witness :
    (0 : Int) ≤ 2 ∧ (2 : Int) ≤ 16 ∧
    (State.stack ⟨3, [1, 1] ++ List.replicate 14 0, 2, []⟩).length = 16 ∧
    ∀ w, exec strings w ⟨3, [1, 1] ++ List.replicate 14 0, 2, []⟩ ≠ .fault .outOfBounds :=
  (stack_depth_invariant fizzbuzz strings (List.replicate 16 0) (by decide)).1 3
    ⟨3, [1, 1] ++ List.replicate 14 0, 2, []⟩ (by decide)

end FizzBuzzVM

/-! ## Stack machine: forward-only programs halt -/

namespace FizzBuzzVM

open FizzBuzz

/-- The argument decoded from a 16-bit word lies in `[-2048, 2047]`. -/
theorem dec_arg_range (w : Nat) (hw : w < 65536) : -2048 ≤ dec_arg w ∧ dec_arg w ≤ 2047 := by
  simp only [dec_arg, shr4_eq]
  omega

/-- A step that does not abort moves `pc` forward, when a jump can only go forward. -/
theorem exec_pc_lt (strings : List String) (w : Nat) (s s' : State)
    (hw : w < 65536) (hfw : dec_op w = OP_CJMP → 0 ≤ dec_arg w)
    (hpc : s.pc < 9223372036854775808) (h : exec strings w s = .next s') : s.pc < s'.pc := by
  obtain ⟨_, _, _, _, hnext⟩ := stack_exec_next strings w s s' h
  rcases hnext with h1 | ⟨hop, hnz, hj⟩
  · omega
  · have h0 := hfw hop
    have hr := dec_arg_range w hw
    rw [hj]
    unfold sizeAdd
    omega

/-- In a forward-only program, `n` steps that do not abort advance `pc` by at least `n`. -/
theorem stepsN_pc (instr : List Nat) (strings : List String)
    (hfw : ForwardOnly instr) (hword : ∀ w ∈ instr, w < 65536)
    (hlen : instr.length ≤ 9223372036854775808) (n : Nat) :
    ∀ s s' : State, stepsN instr strings n s = some s' → s.pc + n ≤ s'.pc := by
  induction n with
  | zero =>
    intro s s' h
    simp only [stepsN, Option.some.injEq] at h
    subst h
    omega
  | succ n ih =>
    intro s s' h
    simp only [stepsN] at h
    cases hs : step instr strings s with
    | none => rw [hs] at h; cases h
    | some r =>
      cases r with
      | next t =>
        rw [hs] at h
        unfold step at hs
        cases hw : instr[s.pc]? with
        | none => rw [hw] at hs; cases hs
        | some w =>
          rw [hw] at hs
          have hex : exec strings w s = .next t := Option.some.inj hs
          obtain ⟨hlt, hget⟩ := List.getElem?_eq_some_iff.mp hw
          have hmem : w ∈ instr := hget ▸ List.getElem_mem hlt
          have hstep := exec_pc_lt strings w s t (hword w hmem) (hfw w hmem) (by omega) hex
          have := ih t s' h
          omega
      | stop t => rw [hs] at h; cases h
      | fault f => rw [hs] at h; cases h

/-- In a forward-only program the run ends within `num_instr - pc + 1` loop tests. -/
theorem run_forward_ends (instr : List Nat) (strings : List String)
    (hfw : ForwardOnly instr) (hword : ∀ w ∈ instr, w < 65536)
    (hlen : instr.length ≤ 9223372036854775808) (n : Nat) :
    ∀ s : State, instr.length - s.pc < n → run instr strings n s ≠ .outOfFuel := by
  induction n with
  | zero => intro s h; omega
  | succ n ih =>
    intro s hn
    simp only [run, step]
    cases hw : instr[s.pc]? with
    | none =>
      simp only [ret]
      split
      · split <;> exact fun h => Outcome.noConfusion h
      · exact fun h => Outcome.noConfusion h
    | some w =>
      obtain ⟨hlt, hget⟩ := List.getElem?_eq_some_iff.mp hw
      have hmem : w ∈ instr := hget ▸ List.getElem_mem hlt
      simp only
      cases hex : exec strings w s with
      | next t =>
        have hstep := exec_pc_lt strings w s t (hword w hmem) (hfw w hmem) (by omega) hex
        exact ih t (by omega)
      | stop t =>
        simp only [ret]
        split
        · split <;> exact fun h => Outcome.noConfusion h
        · exact fun h => Outcome.noConfusion h
      | fault f => exact fun h => Outcome.noConfusion h

/-- C19: forward-only stack programs halt. For every program of 16-bit words (an array
in memory, so of fewer than `2^63` words) in which every `CJMP` word has a decoded
offset `rel >= 0`, and every start state with `pc <= num_instr`: `pc` grows by at least
one with every executed instruction, so an instruction is executed after `n` others only
if `n < num_instr - pc`, and the run ends (by `STOP`, by leaving the loop or by an abort)
within `num_instr - pc + 1` loop tests, that is after at most `num_instr - pc`
instructions. -/
theorem stack_forward_only_halts (instr : List Nat) (strings : List String) (s : State)
    (hfw : ForwardOnly instr) (hword : ∀ w ∈ instr, w < 65536)
    (hlen : instr.length ≤ 9223372036854775808) (hpc : s.pc ≤ instr.length) :
    (∀ n s', stepsN instr strings n s = some s' → s.pc + n ≤ s'.pc) ∧
    (∀ n s' w, stepsN instr strings n s = some s' → instr[s'.pc]? = some w →
      n < instr.length - s.pc) ∧
    run instr strings (instr.length - s.pc + 1) s ≠ .outOfFuel := by
  refine ⟨fun n s' h => stepsN_pc instr strings hfw hword hlen n s s' h,
    fun n s' w h hw => ?_, run_forward_ends instr strings hfw hword hlen _ s (by omega)⟩
  have h1 := stepsN_pc instr strings hfw hword hlen n s s' h
  obtain ⟨hlt, _⟩ := List.getElem?_eq_some_iff.mp hw
  omega

/-- C19 at the forward-only program `PUSH 0; CJMP 2; PUSH 7; STOP` from the empty
stack: it ends within 5 loop tests. -/
theorem stack_forward_only_halts_witness :
    run [word (PUSHIMM 0), word (CJMP 2), word (PUSHIMM 7), word OP_STOP] strings
      (4 - 0 + 1) (initState (List.replicate 16 0)) ≠ .outOfFuel :=
  (stack_forward_only_halts [word (PUSHIMM 0), word (CJMP 2), word (PUSHIMM 7), word OP_STOP]
    strings (initState (List.replicate 16 0)) (by unfold ForwardOnly; decide) (by decide)
    (by decide) (by decide)).2.2

end FizzBuzzVM

/-! ## Jumps by zero and jumps out of the program -/

namespace FizzBuzzReg

open FizzBuzz

/-- The immediate decoded from a 16-bit word lies in `[-512, 511]`. -/
theorem dec_imm_range (ci : Nat) (hw : ci < 65536) : -512 ≤ dec_imm ci ∧ dec_imm ci ≤ 511 := by
  simp only [dec_imm, shr6_eq]
  omega

/-- A state whose step is itself never leaves the loop. -/
theorem run_fixpoint (instr : List Nat) (strings : List String) (s : State)
    (h : step instr strings s = some (.next s)) :
    ∀ fuel, run instr strings fuel s = .outOfFuel := by
  intro fuel
  induction fuel with
  | zero => rfl
  | succ n ih => simp only [run, h, ih]

/-- C20: register machine, unlike the stack machine a `CJMP` with decoded `rel == 0`
is not a no-op: in every state with `pc < num_instr` whose instruction is `CJMP rA, 0`
and with `R[rA] == 0` the step returns the very same state (same `pc`, same registers,
no output), so the run from that state never ends, whatever fuel it is given. -/
theorem reg_cjmp_zero_loops (instr : List Nat) (strings : List String) (s : State) (ci : Nat)
    (hfetch : instr[s.pc]? = some ci) (hop : dec_op ci = OP_CJMP) (hrel : dec_imm ci = 0)
    (hreg : s.reg.length = 8) (hzero : s.R (dec_r1 ci) = 0)
    (hlen : instr.length ≤ 18446744073709551616) :
    step instr strings s = some (.next s) ∧ ∀ fuel, run instr strings fuel s = .outOfFuel := by
  have hpc : s.pc < instr.length := (List.getElem?_eq_some_iff.mp hfetch).1
  have hsame : sizeAdd s.pc (dec_imm ci) = s.pc := by
    rw [hrel]
    unfold sizeAdd
    omega
  have hstep : step instr strings s = some (.next s) := by
    rw [reg_step_fetch instr strings s ci hfetch, exec_cjmp strings ci s hop hreg, if_pos hzero,
      hsame]
  exact ⟨hstep, run_fixpoint instr strings s hstep⟩

/-- C20 at the one-instruction program `CJMP(1, 0)` started from zeroed registers: it
loops forever. -/
theorem reg_cjmp_zero_loops_witness :
    step [CJMP 1 0] strings initState = some (.next initState) ∧
    ∀ fuel, runvm fuel [CJMP 1 0] strings = .outOfFuel :=
  reg_cjmp_zero_loops [CJMP 1 0] strings initState (CJMP 1 0)
    (by decide) (by decide) (by decide) (by decide) (by decide) (by decide)

end FizzBuzzReg

namespace FizzBuzz

/-- C16 fails as stated: a taken `CJMP` whose target is outside the program does not
abort, the run ends normally with a return value. Register machine: the one-word
programs `CJMP(1, 5)` (target 5, beyond the end) and `CJMP(1, -1)` (target -1) from
zeroed registers return 0. Stack machine: `PUSH 0; CJMP 5` (target 6) and
`PUSH 0; CJMP -2` (target -1) from the empty stack return 0. -/
theorem cjmp_out_of_range_counterexample :
    FizzBuzzReg.dec_op (FizzBuzzReg.CJMP 1 5) = FizzBuzzReg.OP_CJMP ∧
    FizzBuzzReg.dec_imm (FizzBuzzReg.CJMP 1 5) = 5 ∧
    FizzBuzzReg.dec_imm (FizzBuzzReg.CJMP 1 (-1)) = -1 ∧
    FizzBuzzReg.runvm 2 [FizzBuzzReg.CJMP 1 5] FizzBuzzReg.strings = .returned 0 [] ∧
    FizzBuzzReg.runvm 2 [FizzBuzzReg.CJMP 1 (-1)] FizzBuzzReg.strings = .returned 0 [] ∧
    FizzBuzzVM.dec_op (FizzBuzzVM.word (FizzBuzzVM.CJMP 5)) = FizzBuzzVM.OP_CJMP ∧
    FizzBuzzVM.dec_arg (FizzBuzzVM.word (FizzBuzzVM.CJMP 5)) = 5 ∧
    FizzBuzzVM.dec_arg (FizzBuzzVM.word (FizzBuzzVM.CJMP (-2))) = -2 ∧
    FizzBuzzVM.runvm 3 (List.replicate 16 0)
      [FizzBuzzVM.word (FizzBuzzVM.PUSHIMM 0), FizzBuzzVM.word (FizzBuzzVM.CJMP 5)]
      FizzBuzzVM.strings = .returned 0 [] ∧
    FizzBuzzVM.runvm 3 (List.replicate 16 0)
      [FizzBuzzVM.word (FizzBuzzVM.PUSHIMM 0), FizzBuzzVM.word (FizzBuzzVM.CJMP (-2))]
      FizzBuzzVM.strings = .returned 0 [] := by
  decide

end FizzBuzz

namespace FizzBuzz

/-- A `size_t` jump target that is negative or not below the program length, from an
index inside a program of fewer than `2^63` words by an offset of at most 2048 in
absolute value, is not an index of the program. -/
theorem sizeAdd_outside (len pc : Nat) (rel : Int) (hpc : pc < len)
    (hlen : len ≤ 9223372036854775808) (hrel : -2048 ≤ rel ∧ rel ≤ 2047)
    (hout : (pc : Int) + rel < 0 ∨ (len : Int) ≤ (pc : Int) + rel) : len ≤ sizeAdd pc rel := by
  unfold sizeAdd
  omega

/-- Register machine: a step to a successor state uses one unit of fuel. -/
theorem reg_run_next (instr : List Nat) (strings : List String) (n : Nat)
    (s s' : FizzBuzzReg.State) (h : FizzBuzzReg.step instr strings s = some (.next s')) :
    FizzBuzzReg.run instr strings (n + 1) s = FizzBuzzReg.run instr strings n s' := by
  simp only [FizzBuzzReg.run, h]

/-- Register machine: with `pc` outside the program the run returns `reg[0]`. -/
theorem reg_run_exit (instr : List Nat) (strings : List String) (n : Nat)
    (s : FizzBuzzReg.State) (h : instr[s.pc]? = none) (hreg : s.reg.length = 8) :
    FizzBuzzReg.run instr strings (n + 1) s = .returned (s.R 0) s.out := by
  have h0 : s.reg[0]? = some (s.R 0) := FizzBuzzReg.reg_get s 0 (by omega)
  simp only [FizzBuzzReg.run, FizzBuzzReg.step, h, h0]

/-- Stack machine: a step to a successor state uses one unit of fuel. -/
theorem stack_run_next (instr : List Nat) (strings : List String) (n : Nat)
    (s s' : FizzBuzzVM.State) (h : FizzBuzzVM.step instr strings s = some (.next s')) :
    FizzBuzzVM.run instr strings (n + 1) s = FizzBuzzVM.run instr strings n s' := by
  simp only [FizzBuzzVM.run, h]

/-- Stack machine: with `pc` outside the program the run goes to the final `return`. -/
theorem stack_run_exit (instr : List Nat) (strings : List String) (n : Nat)
    (s : FizzBuzzVM.State) (h : instr[s.pc]? = none) :
    FizzBuzzVM.run instr strings (n + 1) s = FizzBuzzVM.ret s := by
  simp only [FizzBuzzVM.run, FizzBuzzVM.step, h]

/-- C16, amended: in both machines a taken `CJMP` whose target `pc + rel` lies outside
the program (negative, or `>= num_instr`) is not an abort: the loop test `i < num_instr`
fails at the restart (a negative target has wrapped around as `size_t`) and the run ends
normally, returning `reg[0]` in the register machine and, in the stack machine, the top
of the stack left after the pop (0 when it is empty), with the output written so far.
Programs are arrays of 16-bit words of fewer than `2^63` words. -/
theorem cjmp_out_of_range_returns :
    (∀ (instr : List Nat) (strings : List String) (s : FizzBuzzReg.State) (ci : Nat),
      instr[s.pc]? = some ci → ci < 65536 → instr.length ≤ 9223372036854775808 →
      FizzBuzzReg.dec_op ci = FizzBuzzReg.OP_CJMP → s.reg.length = 8 →
      s.R (FizzBuzzReg.dec_r1 ci) = 0 →
      ((s.pc : Int) + FizzBuzzReg.dec_imm ci < 0 ∨
        (instr.length : Int) ≤ (s.pc : Int) + FizzBuzzReg.dec_imm ci) →
      ∀ fuel, FizzBuzzReg.run instr strings (fuel + 2) s = .returned (s.R 0) s.out) ∧
    (∀ (instr : List Nat) (strings : List String) (s : FizzBuzzVM.State) (w : Nat),
      instr[s.pc]? = some w → w < 65536 → instr.length ≤ 9223372036854775808 →
      FizzBuzzVM.dec_op w = FizzBuzzVM.OP_CJMP → FizzBuzzVM.dec_arg w ≠ 0 →
      0 < s.top → s.top ≤ FizzBuzzVM.max_stack s →
      FizzBuzzVM.rd s.stack (s.top - 1) = some 0 →
      ((s.pc : Int) + FizzBuzzVM.dec_arg w < 0 ∨
        (instr.length : Int) ≤ (s.pc : Int) + FizzBuzzVM.dec_arg w) →
      ∀ fuel,
        (1 < s.top → ∃ v, FizzBuzzVM.rd s.stack (s.top - 2) = some v ∧
          FizzBuzzVM.run instr strings (fuel + 2) s = .returned v s.out) ∧
        (s.top = 1 → FizzBuzzVM.run instr strings (fuel + 2) s = .returned 0 s.out)) := by
  constructor
  · intro instr strings s ci hfetch hw hlen hop hreg hzero hout fuel
    have hpc : s.pc < instr.length := (List.getElem?_eq_some_iff.mp hfetch).1
    have hr := FizzBuzzReg.dec_imm_range ci hw
    have hstep : FizzBuzzReg.step instr strings s
        = some (.next { s with pc := sizeAdd s.pc (FizzBuzzReg.dec_imm ci) }) := by
      rw [FizzBuzzReg.reg_step_fetch instr strings s ci hfetch,
        FizzBuzzReg.exec_cjmp strings ci s hop hreg, if_pos hzero]
    have hnone : instr[sizeAdd s.pc (FizzBuzzReg.dec_imm ci)]? = none :=
      List.getElem?_eq_none
        (sizeAdd_outside instr.length s.pc _ hpc hlen ⟨by omega, by omega⟩ hout)
    exact (reg_run_next instr strings (fuel + 1) s _ hstep).trans
      (reg_run_exit instr strings fuel
        { s with pc := sizeAdd s.pc (FizzBuzzReg.dec_imm ci) } hnone hreg)
  · intro instr strings s w hfetch hw hlen hop hnz htop hcap hv hout fuel
    have hpc : s.pc < instr.length := (List.getElem?_eq_some_iff.mp hfetch).1
    have hr := FizzBuzzVM.dec_arg_range w hw
    have hm : FizzBuzzVM.max_stack s = (s.stack.length : Int) := rfl
    have hstep : FizzBuzzVM.step instr strings s
        = some (.next { s with top := s.top - 1,
                               pc := sizeAdd s.pc (FizzBuzzVM.dec_arg w) }) := by
      rw [FizzBuzzVM.stack_step_fetch instr strings s w hfetch]
      simp only [FizzBuzzVM.exec, hop, FizzBuzzVM.OP_CJMP, ne_eq, hnz, not_false_eq_true,
        if_true, htop, hv]
    have hnone : instr[sizeAdd s.pc (FizzBuzzVM.dec_arg w)]? = none :=
      List.getElem?_eq_none (sizeAdd_outside instr.length s.pc _ hpc hlen hr hout)
    constructor
    · intro h2
      obtain ⟨v, hv2⟩ := FizzBuzzVM.rd_in s.stack (s.top - 2) (by omega) (by omega)
      have hpos : 0 < s.top - 1 := by omega
      have hidx : s.top - 1 - 1 = s.top - 2 := by omega
      refine ⟨v, hv2, ?_⟩
      rw [stack_run_next instr strings (fuel + 1) s _ hstep,
        stack_run_exit instr strings fuel
          { s with top := s.top - 1, pc := sizeAdd s.pc (FizzBuzzVM.dec_arg w) } hnone]
      simp only [FizzBuzzVM.ret, hpos, if_true, hidx, hv2]
    · intro h1
      have hpos : ¬ (0 < s.top - 1) := by omega
      rw [stack_run_next instr strings (fuel + 1) s _ hstep,
        stack_run_exit instr strings fuel
          { s with top := s.top - 1, pc := sizeAdd s.pc (FizzBuzzVM.dec_arg w) } hnone]
      simp only [FizzBuzzVM.ret, hpos, if_false]

/-- C16 amended, at the register program `CJMP(1, 5)` from zeroed registers and at the
stack program `CJMP 5` with a single zero on the stack: both runs return 0. -/
theorem cjmp_out_of_range_returns_witness :
    FizzBuzzReg.run [FizzBuzzReg.CJMP 1 5] FizzBuzzReg.strings (0 + 2) FizzBuzzReg.initState
      = .returned (FizzBuzzReg.initState.R 0) FizzBuzzReg.initState.out ∧
    FizzBuzzVM.run [FizzBuzzVM.word (FizzBuzzVM.CJMP 5)] FizzBuzzVM.strings (0 + 2)
      ⟨0, List.replicate 16 0, 1, []⟩ = .returned 0 [] :=
  ⟨cjmp_out_of_range_returns.1 [FizzBuzzReg.CJMP 1 5] FizzBuzzReg.strings
      FizzBuzzReg.initState (FizzBuzzReg.CJMP 1 5) (by decide) (by decide) (by decide)
      (by decide) (by decide) (by decide) (by decide) 0,
   ((cjmp_out_of_range_returns.2 [FizzBuzzVM.word (FizzBuzzVM.CJMP 5)] FizzBuzzVM.strings
      ⟨0, List.replicate 16 0, 1, []⟩ (FizzBuzzVM.word (FizzBuzzVM.CJMP 5)) (by decide)
      (by decide) (by decide) (by decide) (by decide) (by decide) (by decide) (by decide)
      (by decide) 0).2 (by decide))⟩

end FizzBuzz

/-! ## Stack machine: the encoder does not mask the opcode -/

namespace FizzBuzzVM

open FizzBuzz

/-- The stored word of `OPARG(op, arg)`: the biased argument shifted by four, or-ed with
the bit pattern of `op`, cut to 16 bits. -/
theorem word_OPARG_bits (op arg : Int) :
    word (OPARG op arg) = (toUShort (2048 + arg) <<< 4 ||| toU32 op) % 2 ^ 16 := by
  have hu1 : toU32 ((toUShort (2048 + arg) <<< 4 : Nat) : Int) = toUShort (2048 + arg) <<< 4 := by
    simp only [toU32, toUShort, Nat.shiftLeft_eq]
    omega
  simp only [word, OPARG, intOr]
  rw [hu1]
  simp only [toUShort, wrapInt]
  omega

/-- The low four bits of a word built by or-ing `u` under a field shifted by four. -/
theorem low_bits_or (x u : Nat) : ((x <<< 4 ||| u) % 2 ^ 16) &&& (2 ^ 4 - 1) = u % 2 ^ 4 := by
  apply Nat.eq_of_testBit_eq
  intro i
  simp only [Nat.testBit_and, Nat.testBit_mod_two_pow, Nat.testBit_or, Nat.testBit_shiftLeft,
    Nat.testBit_two_pow_sub_one]
  by_cases h4 : i < 4
  · have h16 : i < 16 := by omega
    have hge : ¬ (i ≥ 4) := by omega
    simp [h4, h16, hge]
  · simp [h4]

/-- The field above the low four bits of such a word: the shifted field or-ed with the
bits of `u` from bit 4 on. -/
theorem field_bits_or (x u : Nat) :
    ((x <<< 4 ||| u) % 2 ^ 16) >>> 4 = (x ||| u >>> 4) % 2 ^ 12 := by
  apply Nat.eq_of_testBit_eq
  intro i
  simp only [Nat.testBit_shiftRight, Nat.testBit_mod_two_pow, Nat.testBit_or,
    Nat.testBit_shiftLeft]
  by_cases h12 : i < 12
  · have h16 : 4 + i < 16 := by omega
    have hge : 4 + i ≥ 4 := by omega
    have hsub : 4 + i - 4 = i := by omega
    simp [h12, h16, hge, hsub]
  · have h16 : ¬ (4 + i < 16) := by omega
    simp [h12, h16]

/-- The word depends on the or-ed value only through its low 16 bits. -/
theorem or_mod_congr (a u v : Nat) (h : u % 2 ^ 16 = v % 2 ^ 16) :
    (a ||| u) % 2 ^ 16 = (a ||| v) % 2 ^ 16 := by
  apply Nat.eq_of_testBit_eq
  intro i
  have hi := congrArg (fun n => Nat.testBit n i) h
  simp only [Nat.testBit_mod_two_pow] at hi
  simp only [Nat.testBit_mod_two_pow, Nat.testBit_or]
  by_cases h16 : i < 16
  · simp only [h16, decide_True, Bool.true_and] at hi ⊢
    rw [hi]
  · simp [h16]

/-- C14 fails as stated: `OPARG` does not mask the opcode. For `op = 16`, `arg = 0` the
stored word has low four bits `16 mod 16 = 0`, but bit 4 of `op` lands in the operand
field: the word decodes to the argument 1, not 0, and is not the word of
`OPARG(16 mod 16, 0)`. For `op = -16`, `arg = 5` the stored word is 65520 and decodes to
the argument 2047. -/
theorem stack_oparg_unmasked_counterexample :
    dec_op (word (OPARG 16 0)) = 0 ∧ dec_arg (word (OPARG 16 0)) = 1 ∧
    dec_arg (word (OPARG 16 0)) ≠ 0 ∧
    word (OPARG 16 0) ≠ word (OPARG (16 % 16) 0) ∧ OPARG 16 0 ≠ OPARG (16 % 16) 0 ∧
    word (OPARG (-16) 5) = 65520 ∧ dec_op (word (OPARG (-16) 5)) = 0 ∧
    dec_arg (word (OPARG (-16) 5)) = 2047 := by
  decide

/-- C14, amended: the stack-machine encoder ORs the `int` opcode in without masking it.
For every integer `op` and every `arg` in `[-2048, 2047]` the stored word of
`OPARG(op, arg)` has low four bits `op mod 16`, and its operand field is the biased
argument or-ed with bits 4..15 of `op`: the word decodes to the argument
`((arg + 2048) | (bits of op from bit 4 on)) mod 4096 - 2048`. When bits 4..15 of `op`
are zero (`op mod 65536 < 16`, in particular `0 <= op <= 15`) the word decodes to `arg`
and is the word of `OPARG(op mod 16, arg)`. -/
theorem stack_oparg_low_bits (op arg : Int) (harg : -2048 ≤ arg ∧ arg ≤ 2047) :
    dec_op (word (OPARG op arg)) = (op % 16).toNat ∧
    dec_arg (word (OPARG op arg))
      = ((((arg + 2048).toNat ||| toU32 op >>> 4) % 4096 : Nat) : Int) - 2048 ∧
    (op % 65536 < 16 →
      dec_arg (word (OPARG op arg)) = arg ∧
      word (OPARG op arg) = word (OPARG (op % 16) arg)) := by
  have hx : toUShort (2048 + arg) = (arg + 2048).toNat := by
    simp only [toUShort]
    omega
  have hsame : op % 65536 < 16 → word (OPARG op arg) = word (OPARG (op % 16) arg) := by
    intro hop
    rw [word_OPARG_bits, word_OPARG_bits]
    apply or_mod_congr
    simp only [toU32]
    omega
  refine ⟨?_, ?_, fun hop => ⟨?_, hsame hop⟩⟩
  · rw [word_OPARG_bits]
    simp only [dec_op]
    rw [show (0xf : Nat) = 2 ^ 4 - 1 from rfl, low_bits_or]
    simp only [toU32]
    omega
  · rw [word_OPARG_bits]
    simp only [dec_arg]
    rw [field_bits_or, hx]
    rfl
  · rw [hsame hop]
    have h16 : (op % 16).toNat < 16 := by omega
    have hcast : (((op % 16).toNat : Nat) : Int) = op % 16 := by omega
    have hw := word_OPARG_eq (op % 16).toNat arg h16
    rw [hcast] at hw
    rw [hw]
    simp only [dec_arg, shr4_eq]
    omega

/-- C14 amended, at `op = 65536 + 7` (bits 4..15 zero, not a 4-bit value),
`arg = -2048`. -/
theorem stack_oparg_low_bits_witness :
    dec_op (word (OPARG 65543 (-2048))) = ((65543 : Int) % 16).toNat ∧
    dec_arg (word (OPARG 65543 (-2048)))
      = (((((-2048 : Int) + 2048).toNat ||| toU32 65543 >>> 4) % 4096 : Nat) : Int) - 2048 ∧
    ((65543 : Int) % 65536 < 16 →
      dec_arg (word (OPARG 65543 (-2048))) = -2048 ∧
      word (OPARG 65543 (-2048)) = word (OPARG (65543 % 16) (-2048))) :=
  stack_oparg_low_bits 65543 (-2048) (by decide)

end FizzBuzzVM
